import Mathlib

/-!
Verification of the btdu-rs repository (btrfs disk-usage sampler).

This file shallowly embeds the parts of the source relevant to the frozen
claims: the btrfs search-key successor and tree-search pagination loop
(src/btrfs/mod.rs), the chunk enumeration and sampling loop of the driver
(src/main.rs), the SampleTree prefix-tree aggregator (src/lib.rs), and the
extent-accounting scanner (src/bin/subvol_usage.rs).

Machine integers (u64, u8, u32) are modelled as Nat; where the source
performs wrapping arithmetic (carrying_add, integer casts) the embedding
applies the corresponding modulus explicitly.  HashMap children are
modelled as association lists; Rust map equality corresponds to the
extensional relation SampleTree.Equiv defined below.  Fallible operations
(unwrap, todo! panics, unchecked u64 subtraction) are modelled with
Option, none denoting a panic.  Kernel ioctls are modelled as oracle
functions supplied as parameters.
-/

/-- Modelled from the spec: the generated btrfs_sys bindings are not part of
the provided sources; the numeric key-type and block-group constants below
are the Linux UAPI values the bindings expose.  Only their distinctness
matters for the claims. -/
def BTRFS_CHUNK_ITEM_KEY : Nat := 228

/-- Modelled from the spec: btrfs_sys constant (Linux UAPI). -/
def BTRFS_EXTENT_ITEM_KEY : Nat := 168

/-- Modelled from the spec: btrfs_sys constant (Linux UAPI). -/
def BTRFS_METADATA_ITEM_KEY : Nat := 169

/-- Modelled from the spec: btrfs_sys constant (Linux UAPI). -/
def BTRFS_EXTENT_DATA_REF_KEY : Nat := 178

/-- Modelled from the spec: btrfs_sys constant (Linux UAPI). -/
def BTRFS_SHARED_DATA_REF_KEY : Nat := 184

/-- Modelled from the spec: btrfs_sys constant (Linux UAPI). -/
def BTRFS_TREE_BLOCK_REF_KEY : Nat := 176

/-- Modelled from the spec: btrfs_sys constant (Linux UAPI). -/
def BTRFS_SHARED_BLOCK_REF_KEY : Nat := 182

/-- Modelled from the spec: btrfs_sys flag, spec section 6: DATA (0x1). -/
def BTRFS_EXTENT_FLAG_DATA : Nat := 1

/-- Modelled from the spec: btrfs_sys flag, spec section 6: TREE_BLOCK (0x2). -/
def BTRFS_EXTENT_FLAG_TREE_BLOCK : Nat := 2

/-- Modelled from the spec: btrfs_sys block-group type bit (Linux UAPI). -/
def BTRFS_BLOCK_GROUP_DATA : Nat := 1

/-- Modelled from the spec: btrfs_sys block-group type bit (Linux UAPI). -/
def BTRFS_BLOCK_GROUP_SYSTEM : Nat := 2

/-- Modelled from the spec: btrfs_sys block-group type bit (Linux UAPI). -/
def BTRFS_BLOCK_GROUP_METADATA : Nat := 4

/-- Modelled from the spec: btrfs_sys mask, union of the three type bits. -/
def BTRFS_BLOCK_GROUP_TYPE_MASK : Nat :=
  BTRFS_BLOCK_GROUP_DATA ||| BTRFS_BLOCK_GROUP_SYSTEM ||| BTRFS_BLOCK_GROUP_METADATA

/-- SearchKey from src/btrfs/mod.rs: triple (objectid: u64, typ: u8, offset: u64). -/
structure SearchKey where
  objectid : Nat
  typ : Nat
  offset : Nat
deriving DecidableEq, Repr

namespace SearchKey

/-- Fields are in the ranges of the machine types u64, u8, u64. -/
def Valid (k : SearchKey) : Prop :=
  k.objectid < 2 ^ 64 ∧ k.typ < 2 ^ 8 ∧ k.offset < 2 ^ 64

instance (k : SearchKey) : Decidable k.Valid := by
  unfold Valid; infer_instance

/-- SearchKey::MIN. -/
def MIN : SearchKey := ⟨0, 0, 0⟩

/-- SearchKey::MAX. -/
def MAX : SearchKey := ⟨2 ^ 64 - 1, 2 ^ 8 - 1, 2 ^ 64 - 1⟩

/-- SearchKey::next from src/btrfs/mod.rs lines 99-108: increment offset by
one with carrying_add, carrying into typ and then objectid; u64 and u8
wrapping is the explicit modulus. -/
def next (k : SearchKey) : SearchKey :=
  let offset := (k.offset + 1) % 2 ^ 64
  let carry1 := if k.offset + 1 < 2 ^ 64 then 0 else 1
  let typ := (k.typ + carry1) % 2 ^ 8
  let carry2 := if k.typ + carry1 < 2 ^ 8 then 0 else 1
  let objectid := (k.objectid + carry2) % 2 ^ 64
  ⟨objectid, typ, offset⟩

/-- The lexicographic (objectid, typ, offset) order of the spec data model. -/
def lt (a b : SearchKey) : Prop :=
  a.objectid < b.objectid ∨
    (a.objectid = b.objectid ∧
      (a.typ < b.typ ∨ (a.typ = b.typ ∧ a.offset < b.offset)))

instance (a b : SearchKey) : Decidable (lt a b) := by
  unfold lt; infer_instance

/-- Positional encoding of a key; on valid keys it is an order isomorphism
onto an initial segment of Nat. -/
def encode (k : SearchKey) : Nat :=
  (k.objectid * 2 ^ 8 + k.typ) * 2 ^ 64 + k.offset

end SearchKey

/-- btrfs_ioctl_search_header (spec section 6): transid, objectid, offset,
type, len; type and len are u32 on the wire. -/
structure SearchHeader where
  transid : Nat
  objectid : Nat
  offset : Nat
  typ : Nat
  len : Nat
deriving DecidableEq, Repr

/-- One (header, payload) record streamed out of the search buffer. -/
structure SearchRecord where
  header : SearchHeader
  data : List Nat
deriving DecidableEq, Repr

namespace SearchKey

/-- SearchKey::from(h): the header type field (u32) is cast to u8. -/
def fromHeader (h : SearchHeader) : SearchKey :=
  ⟨h.objectid, h.typ % 2 ^ 8, h.offset⟩

end SearchKey

/-- An inclusive range of search keys (RangeInclusive of SearchKey). -/
structure SearchRange where
  lo : SearchKey
  hi : SearchKey
deriving DecidableEq, Repr

/-- SearchKey::ALL. -/
def SearchKey.ALL : SearchRange := ⟨SearchKey.MIN, SearchKey.MAX⟩

/-- btrfs_ioctl_search_key as mutated by the pagination loop of
tree_search_cb (src/btrfs/mod.rs lines 131-192).  nr_items is reset to
u32::MAX before every ioctl and overwritten by the kernel with the batch
length, so it is not part of the loop state; the unused fields are zero. -/
structure SearchKeyArgs where
  tree_id : Nat
  min_objectid : Nat
  max_objectid : Nat
  min_offset : Nat
  max_offset : Nat
  min_transid : Nat
  max_transid : Nat
  min_type : Nat
  max_type : Nat
deriving DecidableEq, Repr

/-- Initial search key struct seeded from the requested range
(src/btrfs/mod.rs lines 133-151): transid unbounded, types cast u8 to u32
(the identity on values below 2^8). -/
def initialSearchArgs (tree_id : Nat) (range : SearchRange) : SearchKeyArgs :=
  { tree_id := tree_id
    min_objectid := range.lo.objectid
    max_objectid := range.hi.objectid
    min_offset := range.lo.offset
    max_offset := range.hi.offset
    min_transid := 0
    max_transid := 2 ^ 64 - 1
    min_type := range.lo.typ
    max_type := range.hi.typ }

/-- The three assignments at the bottom of the pagination loop
(src/btrfs/mod.rs lines 186-188): only min_objectid, min_type, min_offset
are written. -/
def setMinKey (args : SearchKeyArgs) (k : SearchKey) : SearchKeyArgs :=
  { args with min_objectid := k.objectid, min_type := k.typ, min_offset := k.offset }

/-- One trip around the pagination loop as it affects the search key
struct: a non-empty batch advances min_* past the last returned header, an
empty batch leaves the struct alone (the loop has exited). -/
def treeSearchArgsStep (kernel : SearchKeyArgs → List SearchRecord)
    (args : SearchKeyArgs) : SearchKeyArgs :=
  match (kernel args).getLast? with
  | some r => setMinKey args (SearchKey.next (SearchKey.fromHeader r.header))
  | none => args

/-- The search key struct as seen by the i-th ioctl issued by
tree_search_cb when the kernel behaves as the oracle function. -/
def treeSearchArgsAt (kernel : SearchKeyArgs → List SearchRecord)
    (args : SearchKeyArgs) : Nat → SearchKeyArgs
  | 0 => args
  | i + 1 => treeSearchArgsStep kernel (treeSearchArgsAt kernel args i)

/-- The pagination loop of tree_search_cb with explicit fuel: returns the
concatenation of all record batches delivered to the callback if the loop
exits within the given number of iterations, none otherwise.  The loop
exits exactly when the kernel returns zero records (nr_items == 0). -/
def treeSearchRun (kernel : SearchKeyArgs → List SearchRecord)
    (args : SearchKeyArgs) : Nat → Option (List SearchRecord)
  | 0 => none
  | fuel + 1 =>
    let batch := kernel args
    match batch.getLast? with
    | none => some []
    | some r =>
      (treeSearchRun kernel
        (setMinKey args (SearchKey.next (SearchKey.fromHeader r.header)))
        fuel).map (fun rest => batch ++ rest)

/-- tree_search_cb terminates on this oracle and start state. -/
def TreeSearchTerminates (kernel : SearchKeyArgs → List SearchRecord)
    (args : SearchKeyArgs) : Prop :=
  ∃ fuel, (treeSearchRun kernel args fuel).isSome

/-- Little-endian u64 decode of (up to) the first eight bytes of a byte
list, as the unaligned load of a packed u64 field. -/
def leU64 (bs : List Nat) : Nat :=
  (bs.take 8).foldr (fun b acc => acc * 256 + b % 256) 0

/-- ChunkInfo from src/main.rs lines 390-396. -/
structure ChunkInfo where
  pos : Nat
  chunk_offset : Nat
  chunk_length : Nat
  chunk_type : Nat
deriving DecidableEq, Repr

/-- The chunk-tree callback of src/main.rs lines 400-419 applied to one
record: a CHUNK_ITEM record appends (pos = running total, header offset,
chunk length, chunk type) and advances the running total by the chunk
length; every other record leaves the state unchanged.  The btrfs_chunk
payload holds length at byte offset 0 and type at byte offset 40. -/
def chunkScanStep (st : List ChunkInfo × Nat) (r : SearchRecord) :
    List ChunkInfo × Nat :=
  if r.header.typ = BTRFS_CHUNK_ITEM_KEY then
    let len := leU64 r.data
    let ty := leU64 (r.data.drop 40)
    (st.1 ++ [⟨st.2, r.header.offset, len, ty⟩], st.2 + len)
  else st

/-- Chunk enumeration: fold the callback over the records returned by the
chunk-tree search, starting from an empty chunk list and zero total. -/
def enumChunks (recs : List SearchRecord) : List ChunkInfo × Nat :=
  recs.foldl chunkScanStep ([], 0)

/-- SampleTree from src/lib.rs lines 12-15: a node holds a u64 total and a
map from component strings to child nodes.  The HashMap is modelled as an
association list; Rust map equality is the extensional relation
SampleTree.Equiv below.  The private SampleTree of src/main.rs lines
247-250 has the same shape (its total is usize). -/
inductive SampleTree where
  | node : Nat → List (String × SampleTree) → SampleTree

namespace SampleTree

/-- The total field of a node. -/
def total : SampleTree → Nat
  | .node t _ => t

/-- The children field of a node. -/
def children : SampleTree → List (String × SampleTree)
  | .node _ cs => cs

/-- SampleTree::new. -/
def new : SampleTree := .node 0 []

end SampleTree

/-- HashMap::get on the children map: the first entry with the key. -/
def lookupChild (cs : List (String × SampleTree)) (k : String) :
    Option SampleTree :=
  match cs with
  | [] => none
  | (k', c) :: rest => if k' = k then some c else lookupChild rest k

/-- get_or_create_child (src/lib.rs lines 62-64) combined with the use the
callers make of the returned reference: look up the key, inserting a fresh
node when absent, and apply the mutation f to that child in place. -/
def getOrCreateUpdate (cs : List (String × SampleTree)) (k : String)
    (f : SampleTree → SampleTree) : List (String × SampleTree) :=
  match cs with
  | [] => [(k, f SampleTree.new)]
  | (k', c) :: rest =>
    if k' = k then (k', f c) :: rest else (k', c) :: getOrCreateUpdate rest k f

namespace SampleTree

/-- add_sample from src/lib.rs lines 66-74 (and SampleTree::add of
src/main.rs lines 266-274, which is the same walk): add one to the total
of every node along the path, creating missing children; the path argument
is first so that the recursion is structural on it. -/
def add_sample : List String → SampleTree → SampleTree
  | [], .node t cs => .node (t + 1) cs
  | p :: ps, .node t cs =>
    .node (t + 1) (getOrCreateUpdate cs p (fun c => add_sample ps c))

/-- add_samples from src/lib.rs lines 76-84: like add_sample with an
explicit weight. -/
def add_samples (n : Nat) : List String → SampleTree → SampleTree
  | [], .node t cs => .node (t + n) cs
  | p :: ps, .node t cs =>
    .node (t + n) (getOrCreateUpdate cs p (fun c => add_samples n ps c))

end SampleTree

mutual

/-- SampleTree::add from src/lib.rs lines 41-46: pointwise sum, creating
missing children. -/
def SampleTree.add : SampleTree → SampleTree → SampleTree
  | .node ta ca, .node tb cb => .node (ta + tb) (addChildren ca cb)
termination_by _ b => sizeOf b

/-- The for-loop of SampleTree::add over the children of other. -/
def addChildren (ca : List (String × SampleTree)) :
    List (String × SampleTree) → List (String × SampleTree)
  | [] => ca
  | (k, v) :: rest => addChildren (getOrCreateUpdate ca k (fun c => c.add v)) rest
termination_by l => sizeOf l

end

mutual

/-- SampleTree::sub from src/lib.rs lines 48-60, with the unchecked u64
subtraction self.total -= other.total made explicit: none models the
debug-mode underflow panic.  When the subtracted total reaches zero the
children are cleared and the recursion stops (the eviction-prunes-zero
behaviour); a child present in other but absent in self is a no-op. -/
def SampleTree.sub? : SampleTree → SampleTree → Option SampleTree
  | .node ta ca, .node tb cb =>
    if tb ≤ ta then
      if ta - tb = 0 then some (.node 0 [])
      else
        match subChildren ca cb with
        | some ca' => some (.node (ta - tb) ca')
        | none => none
    else none
termination_by _ b => (sizeOf b, 0)

/-- The for-loop of SampleTree::sub over the children of other. -/
def subChildren (ca : List (String × SampleTree)) :
    List (String × SampleTree) → Option (List (String × SampleTree))
  | [] => some ca
  | (k, v) :: rest =>
    match subOneChild ca k v with
    | some ca' => subChildren ca' rest
    | none => none
termination_by l => (sizeOf l, 0)

/-- One iteration of the sub loop: children.get_mut(k), recursing when the
child exists and leaving the list unchanged when it does not. -/
def subOneChild : List (String × SampleTree) → String → SampleTree →
    Option (List (String × SampleTree))
  | [], _, _ => some []
  | (k', c) :: cs, k, v =>
    if k' = k then (c.sub? v).map (fun c' => (k', c') :: cs)
    else (subOneChild cs k v).map (fun l => (k', c) :: l)
termination_by l _ v => (sizeOf v + 1, sizeOf l)

end

/-- The subtree of a SampleTree reached by following a path of component
strings, when every component exists. -/
def subtreeAt : SampleTree → List String → Option SampleTree
  | t, [] => some t
  | .node _ cs, k :: ks =>
    match lookupChild cs k with
    | some c => subtreeAt c ks
    | none => none

/-- The total recorded at a path, zero when the node does not exist. -/
def totalAt (t : SampleTree) (q : List String) : Nat :=
  ((subtreeAt t q).map SampleTree.total).getD 0

/-- The tree built by a sequence of add_sample calls on an initially empty
SampleTree. -/
def buildTree (ps : List (List String)) : SampleTree :=
  ps.foldl (fun t p => SampleTree.add_sample p t) SampleTree.new

/-- The keys of a children list. -/
def keysOf (cs : List (String × SampleTree)) : List String :=
  cs.map Prod.fst

/-- Well-formedness every tree produced by the Rust code has: child keys
are duplicate-free at every node (they are HashMap keys). -/
inductive WfKeys : SampleTree → Prop
  | node (t : Nat) (cs : List (String × SampleTree)) :
      (keysOf cs).Nodup → (∀ kv ∈ cs, WfKeys kv.2) → WfKeys (.node t cs)

/-- Invariant (a) of the spec data model: at every node the children
totals sum to at most the node total. -/
inductive TotalsDom : SampleTree → Prop
  | node (t : Nat) (cs : List (String × SampleTree)) :
      (cs.map (fun kv => kv.2.total)).sum ≤ t →
      (∀ kv ∈ cs, TotalsDom kv.2) → TotalsDom (.node t cs)

/-- The per-visited-node precondition of SampleTree::sub: at the root the
subtracted total fits, and unless the subtraction evicts (reaches zero)
the same holds recursively for every child of other that exists in self.
Children absent from self are skipped, matching the no-op branch. -/
inductive SubLe : SampleTree → SampleTree → Prop
  | stop (ta : Nat) (ca : List (String × SampleTree)) (tb : Nat)
      (cb : List (String × SampleTree)) :
      tb ≤ ta → ta - tb = 0 → SubLe (.node ta ca) (.node tb cb)
  | go (ta : Nat) (ca : List (String × SampleTree)) (tb : Nat)
      (cb : List (String × SampleTree)) :
      tb ≤ ta → ta - tb ≠ 0 →
      (∀ k bv av, lookupChild cb k = some bv → lookupChild ca k = some av →
        SubLe av bv) →
      SubLe (.node ta ca) (.node tb cb)

/-- Extensional tree equality: equal totals and children maps that agree
key for key.  This is what Rust == (PartialEq of the struct with a HashMap
field) means on SampleTree values. -/
inductive SampleTree.Equiv : SampleTree → SampleTree → Prop
  | node (a b : SampleTree) :
      a.total = b.total →
      (∀ k, (lookupChild a.children k).isSome = (lookupChild b.children k).isSome) →
      (∀ k c d, lookupChild a.children k = some c →
        lookupChild b.children k = some d → SampleTree.Equiv c d) →
      SampleTree.Equiv a b

mutual

/-- Drop zero-total subtrees everywhere: the quotient in which the
add/sub round-trip law holds. -/
def SampleTree.prune : SampleTree → SampleTree
  | .node t cs => .node t (pruneChildren cs)
termination_by t => sizeOf t

/-- prune on a children list: zero-total children are removed, the rest
are pruned recursively. -/
def pruneChildren : List (String × SampleTree) → List (String × SampleTree)
  | [] => []
  | (k, c) :: rest =>
    if c.total = 0 then pruneChildren rest
    else (k, c.prune) :: pruneChildren rest
termination_by l => sizeOf l

end

/-- LogicalInoItem from src/main.rs lines 75-81: (inum, offset, root). -/
structure LogicalInoItem where
  inum : Nat
  offset : Nat
  root : Nat
deriving DecidableEq, Repr

/-- The path separator used by the sampling loop when splitting the
ino_lookup result. -/
def slash : String := r"/"

/-- The inode-path components used by the sampling loop
(src/main.rs line 453): split on the separator and keep the non-empty
components. -/
def splitNonEmpty (s : String) : List String :=
  (s.splitOn slash).filter (fun c => !c.isEmpty)

/-- One sample classified and recorded, from the match statement of the
sampling loop (src/main.rs lines 442-483).  The kernel reverse-mapping
ioctl, the inode-path ioctl and the memoized root resolver are oracle
functions; Except.error models the ioctl Err branch.  In the DATA case
every returned inode is processed: on ino_lookup success the sample is
recorded under root path components followed by the non-empty inode path
components (the DATA prefix recording is commented out in the source), on
failure nothing is recorded; a logical_ino failure records nothing.
METADATA, SYSTEM and other chunk types record nothing (their recordings
are commented out in the source). -/
def sampleStep (logicalIno : Nat → Except Unit (List LogicalInoItem))
    (inoLookup : Nat → Nat → Except Unit String)
    (roots : Nat → List String)
    (c : ChunkInfo) (p : Nat) (t : SampleTree) : SampleTree :=
  let masked := (c.chunk_type % 2 ^ 32) &&& BTRFS_BLOCK_GROUP_TYPE_MASK
  if masked = BTRFS_BLOCK_GROUP_DATA then
    let la := c.chunk_offset + (p - c.pos)
    match logicalIno la with
    | .ok inodes =>
      inodes.foldl (fun acc inode =>
        match inoLookup inode.root inode.inum with
        | .ok path =>
          SampleTree.add_sample (roots inode.root ++ splitNonEmpty path) acc
        | .error _ => acc) t
    | .error _ => t
  else if masked = BTRFS_BLOCK_GROUP_METADATA then t
  else if masked = BTRFS_BLOCK_GROUP_SYSTEM then t
  else t

/-- One iteration of the sampling loop (src/main.rs lines 434-484): find
the chunk containing the drawn position (none models the unwrap panic when
no chunk covers it), count the sample toward total_samples, and record it
with sampleStep. -/
def sampleLoopBody (logicalIno : Nat → Except Unit (List LogicalInoItem))
    (inoLookup : Nat → Nat → Except Unit String)
    (roots : Nat → List String)
    (chunks : List ChunkInfo) (p : Nat) (st : SampleTree × Nat) :
    Option (SampleTree × Nat) :=
  match chunks.find? (fun c => decide (c.pos ≤ p) && decide (p < c.pos + c.chunk_length)) with
  | none => none
  | some c => some (sampleStep logicalIno inoLookup roots c p st.1, st.2 + 1)

/-- PtrReader::next of src/bin/subvol_usage.rs lines 49-60 at byte
granularity: take n bytes when available, reporting exhaustion otherwise. -/
def readBytes (n : Nat) (bs : List Nat) : Option (List Nat × List Nat) :=
  if n ≤ bs.length then some (bs.take n, bs.drop n) else none

/-- The (root, objectid) keyed usage map of subvol_usage, as an
association list. -/
abbrev Usage := List ((Nat × Nat) × Nat)

/-- root_usage.entry(k).or_default().add_assign(n): add n to the entry,
inserting it at zero first when absent. -/
def addUsage (u : Usage) (k : Nat × Nat) (n : Nat) : Usage :=
  match u with
  | [] => [(k, n)]
  | (k', v) :: rest =>
    if k' = k then (k', v + n) :: rest else (k', v) :: addUsage rest k n

/-- The inline-ref while-loop of src/bin/subvol_usage.rs lines 91-112: read
a one-byte type tag; EXTENT_DATA_REF_KEY reads a 28-byte
btrfs_extent_data_ref (root at offset 0, objectid at offset 8) and
attributes the extent length to (root, objectid); SHARED_DATA_REF_KEY
skips a u64 and a 4-byte btrfs_shared_data_ref; any other tag hits todo!,
a panic, modelled as none.  Exhausted payload ends the loop. -/
def walkInlineRefs (extentLength : Nat) (u : Usage) (bs : List Nat) :
    Option Usage :=
  match bs with
  | [] => some u
  | tag :: rest =>
    if tag % 2 ^ 8 = BTRFS_EXTENT_DATA_REF_KEY then
      match h : readBytes 28 rest with
      | some (payload, rest') =>
        walkInlineRefs extentLength
          (addUsage u (leU64 payload, leU64 (payload.drop 8)) extentLength) rest'
      | none => none
    else if tag % 2 ^ 8 = BTRFS_SHARED_DATA_REF_KEY then
      match h : readBytes 12 rest with
      | some (_, rest') => walkInlineRefs extentLength u rest'
      | none => none
    else none
termination_by bs.length
decreasing_by
  all_goals unfold readBytes at h
  all_goals split at h
  all_goals cases h
  all_goals simp only [List.length_cons, List.length_drop]
  all_goals omega

/-- The fixed-size extent_inline_ref loop of the METADATA_ITEM branch
(src/bin/subvol_usage.rs lines 119-151): read 9-byte (type, offset)
records; TREE_BLOCK_REF and SHARED_BLOCK_REF are recognized and ignored,
any other type hits todo! (none). -/
def walkMetadataRefs (bs : List Nat) : Option (List Nat) :=
  match bs with
  | [] => some []
  | b :: rest =>
    if 9 ≤ (b :: rest).length then
      let tag := b % 2 ^ 8
      if tag = BTRFS_TREE_BLOCK_REF_KEY then walkMetadataRefs ((b :: rest).drop 9)
      else if tag = BTRFS_SHARED_BLOCK_REF_KEY then walkMetadataRefs ((b :: rest).drop 9)
      else none
    else some (b :: rest)
termination_by bs.length
decreasing_by
  all_goals simp_all
  all_goals omega

/-- The extent-tree callback of src/bin/subvol_usage.rs lines 76-162
applied to one record, none modelling any panic (todo! on unknown shapes,
unwrap on short payloads, the trailing data-left panic).  EXTENT_ITEM:
read the 24-byte btrfs_extent_item (flags at offset 16); skip the 18-byte
tree_block_info when the TREE_BLOCK flag is set; walk inline data refs
when the DATA flag is set, otherwise todo!.  METADATA_ITEM: walk fixed
extent_inline_ref records, panicking when bytes are left over.  Any other
record type returns before the data-left check. -/
def processRecord (u : Usage) (sh : SearchHeader) (data : List Nat) :
    Option Usage :=
  if sh.typ = BTRFS_EXTENT_ITEM_KEY then
    match readBytes 24 data with
    | none => none
    | some (ei, rest0) =>
      let flags := leU64 (ei.drop 16)
      let rest :=
        if flags &&& BTRFS_EXTENT_FLAG_TREE_BLOCK ≠ 0 then
          match readBytes 18 rest0 with
          | some (_, rest1) => rest1
          | none => rest0
        else rest0
      if flags &&& BTRFS_EXTENT_FLAG_DATA ≠ 0 then
        walkInlineRefs sh.offset u rest
      else none
  else if sh.typ = BTRFS_METADATA_ITEM_KEY then
    match readBytes 24 data with
    | none => none
    | some (_, rest) =>
      match walkMetadataRefs rest with
      | none => none
      | some leftover => if leftover.length > 0 then none else some u
  else some u

/-- The extent-tree scan: fold processRecord over the records; a panic in
any record aborts the whole scan (the process dies), so none propagates. -/
def scanRecords (u : Usage) (recs : List SearchRecord) : Option Usage :=
  match recs with
  | [] => some u
  | r :: rest =>
    match processRecord u r.header r.data with
    | some u' => scanRecords u' rest
    | none => none

/-- The chunk-map shape the claims describe: starting from a base, every
chunk starts exactly where the previous one ended. -/
def ChunksContiguous : Nat → List ChunkInfo → Prop
  | _, [] => True
  | base, c :: rest => c.pos = base ∧ ChunksContiguous (base + c.chunk_length) rest

section SearchKeyTheorems

namespace SearchKey

theorem lt_iff_encode_lt (a b : SearchKey) (ha : a.Valid) (hb : b.Valid) :
    lt a b ↔ encode a < encode b := by
  obtain ⟨ha1, ha2, ha3⟩ := ha
  obtain ⟨hb1, hb2, hb3⟩ := hb
  unfold lt encode
  constructor
  · rintro (h | ⟨h1, h2 | ⟨h2, h3⟩⟩) <;> nlinarith
  · intro h
    rcases lt_trichotomy a.objectid b.objectid with h1 | h1 | h1
    · exact Or.inl h1
    · rcases lt_trichotomy a.typ b.typ with h2 | h2 | h2
      · exact Or.inr ⟨h1, Or.inl h2⟩
      · refine Or.inr ⟨h1, Or.inr ⟨h2, ?_⟩⟩
        nlinarith
      · exfalso; nlinarith
    · exfalso; nlinarith

theorem next_valid (k : SearchKey) : k.next.Valid := by
  refine ⟨?_, ?_, ?_⟩ <;> simp [next] <;> omega

theorem ne_MAX_fields (k : SearchKey) (hv : k.Valid) (h : k ≠ MAX) :
    ¬(k.objectid = 2 ^ 64 - 1 ∧ k.typ = 2 ^ 8 - 1 ∧ k.offset = 2 ^ 64 - 1) := by
  rintro ⟨h1, h2, h3⟩
  apply h
  cases k
  simp_all [MAX]

theorem encode_next (k : SearchKey) (hv : k.Valid) (h : k ≠ MAX) :
    encode k.next = encode k + 1 := by
  have hf := ne_MAX_fields k hv h
  obtain ⟨h1, h2, h3⟩ := hv
  unfold next encode
  simp only
  by_cases c1 : k.offset + 1 < 2 ^ 64
  · rw [if_pos c1, if_pos (by omega : k.typ + 0 < 2 ^ 8),
      Nat.mod_eq_of_lt c1, Nat.mod_eq_of_lt (by omega),
      Nat.mod_eq_of_lt (by omega)]
    ring
  · have hoff : k.offset = 2 ^ 64 - 1 := by omega
    rw [if_neg c1]
    by_cases c2 : k.typ + 1 < 2 ^ 8
    · rw [if_pos c2, Nat.mod_eq_of_lt c2, Nat.mod_eq_of_lt (by omega)]
      have : (k.offset + 1) % 2 ^ 64 = 0 := by omega
      rw [this]
      nlinarith
    · have htyp : k.typ = 2 ^ 8 - 1 := by omega
      have hobj : k.objectid < 2 ^ 64 - 1 := by
        rcases Nat.lt_or_ge k.objectid (2 ^ 64 - 1) with hlt | hge
        · exact hlt
        · exfalso; exact hf ⟨by omega, htyp, hoff⟩
      rw [if_neg c2, Nat.mod_eq_of_lt (by omega : k.objectid + 1 < 2 ^ 64)]
      have h0 : (k.offset + 1) % 2 ^ 64 = 0 := by omega
      have h1' : (k.typ + 1) % 2 ^ 8 = 0 := by omega
      rw [h0, h1']
      nlinarith

end SearchKey

end SearchKeyTheorems

/-- C3: for every valid SearchKey k other than MAX, next(k) is strictly
greater than k in the lexicographic (objectid, type, offset) order, no
valid key lies strictly between k and next(k), and next advances the
positional encoding by exactly one (offset incremented with carry into
type and then objectid). -/
theorem claim_C3_searchKey_next_successor (k : SearchKey) (hv : k.Valid)
    (h : k ≠ SearchKey.MAX) :
    SearchKey.lt k k.next ∧
    (∀ j : SearchKey, j.Valid → SearchKey.lt k j → SearchKey.lt j k.next → False) ∧
    SearchKey.encode k.next = SearchKey.encode k + 1 := by
  have hnv := SearchKey.next_valid k
  have he := SearchKey.encode_next k hv h
  refine ⟨?_, ?_, he⟩
  · rw [SearchKey.lt_iff_encode_lt k k.next hv hnv, he]
    omega
  · intro j hj h1 h2
    rw [SearchKey.lt_iff_encode_lt k j hv hj] at h1
    rw [SearchKey.lt_iff_encode_lt j k.next hj hnv, he] at h2
    omega

/-- Witness for C3 at the concrete key (0, 0, 0). -/
theorem claim_C3_witness : SearchKey.lt ⟨0, 0, 0⟩ (SearchKey.next ⟨0, 0, 0⟩) :=
  (claim_C3_searchKey_next_successor ⟨0, 0, 0⟩ (by decide) (by decide)).1

/-- Helper for the C4 counterexample: when the kernel oracle never
returns an empty batch, the pagination loop never exits, for any fuel and
any starting search struct. -/
theorem treeSearchRun_none_of_never_empty
    (kernel : SearchKeyArgs → List SearchRecord)
    (hk : ∀ a, kernel a ≠ []) :
    ∀ (fuel : Nat) (args : SearchKeyArgs),
      treeSearchRun kernel args fuel = none := by
  intro fuel
  induction fuel with
  | zero => intro args; rfl
  | succ n ih =>
    intro args
    have hs : ((kernel args).getLast?).isSome := by
      rw [List.getLast?_isSome]
      exact hk args
    obtain ⟨r, hr⟩ := Option.isSome_iff_exists.mp hs
    simp only [treeSearchRun, hr]
    simp [ih]

/-- Counterexample to C4: the claim asserts termination for an oracle
whose last returned key reaches MAX (the wrap is supposedly treated as
done).  The kernel oracle that always returns a single record with key MAX
never reaches a zero-record batch and tree_search_cb loops forever on it:
the loop in the source only exits on nr_items == 0 and blindly reissues
the search after next(MAX) wraps to MIN. -/
theorem claim_C4_counterexample :
    ¬ TreeSearchTerminates
        (fun _ => [⟨⟨0, 2 ^ 64 - 1, 2 ^ 64 - 1, 2 ^ 8 - 1, 0⟩, []⟩])
        (initialSearchArgs 1 SearchKey.ALL) := by
  rintro ⟨fuel, hf⟩
  rw [treeSearchRun_none_of_never_empty _ (fun a => by simp) fuel _] at hf
  simp at hf

/-- Shift law for the iterated search struct. -/
theorem treeSearchArgsAt_succ_shift
    (kernel : SearchKeyArgs → List SearchRecord) (args : SearchKeyArgs)
    (n : Nat) :
    treeSearchArgsAt kernel args (n + 1) =
      treeSearchArgsAt kernel (treeSearchArgsStep kernel args) n := by
  induction n with
  | zero => rfl
  | succ m ih =>
    show treeSearchArgsStep kernel (treeSearchArgsAt kernel args (m + 1)) = _
    rw [ih]
    rfl

/-- C4 amended: tree_search_cb terminates exactly through the zero-record
exit: if the kernel oracle ever returns an empty batch along the issued
trajectory, the loop terminates.  A final next() that wraps past MAX is
not treated as done; the loop reissues the search from MIN (see the
counterexample), so termination requires an eventual empty batch. -/
theorem claim_C4_amended (kernel : SearchKeyArgs → List SearchRecord)
    (args : SearchKeyArgs) (i : Nat)
    (h : kernel (treeSearchArgsAt kernel args i) = []) :
    TreeSearchTerminates kernel args := by
  induction i generalizing args with
  | zero =>
    refine ⟨1, ?_⟩
    simp only [treeSearchArgsAt] at h
    simp [treeSearchRun, h]
  | succ n ih =>
    rw [treeSearchArgsAt_succ_shift] at h
    obtain ⟨fuel, hf⟩ := ih (treeSearchArgsStep kernel args) h
    rcases hgl : (kernel args).getLast? with _ | r
    · exact ⟨fuel + 1, by simp [treeSearchRun, hgl]⟩
    · refine ⟨fuel + 1, ?_⟩
      have hstep : treeSearchArgsStep kernel args =
          setMinKey args (SearchKey.next (SearchKey.fromHeader r.header)) := by
        simp [treeSearchArgsStep, hgl]
      rw [hstep] at hf
      simp only [treeSearchRun, hgl]
      simpa using hf

/-- Witness for C4 amended: the oracle that immediately returns an empty
batch terminates. -/
theorem claim_C4_witness :
    TreeSearchTerminates (fun _ => []) (initialSearchArgs 1 SearchKey.ALL) :=
  claim_C4_amended (fun _ => []) (initialSearchArgs 1 SearchKey.ALL) 0 rfl

/-- C5: along the whole pagination run, the max_objectid, max_type and
max_offset fields (and the transid bounds and tree_id) keep the initial
values derived from the requested range, and an iteration that got a
non-empty batch sets the min fields to next(key of the last returned
header). -/
theorem claim_C5_pagination_frame (kernel : SearchKeyArgs → List SearchRecord)
    (tid : Nat) (range : SearchRange) (i : Nat) :
    ((treeSearchArgsAt kernel (initialSearchArgs tid range) i).max_objectid
        = range.hi.objectid ∧
      (treeSearchArgsAt kernel (initialSearchArgs tid range) i).max_type
        = range.hi.typ ∧
      (treeSearchArgsAt kernel (initialSearchArgs tid range) i).max_offset
        = range.hi.offset ∧
      (treeSearchArgsAt kernel (initialSearchArgs tid range) i).min_transid = 0 ∧
      (treeSearchArgsAt kernel (initialSearchArgs tid range) i).max_transid
        = 2 ^ 64 - 1 ∧
      (treeSearchArgsAt kernel (initialSearchArgs tid range) i).tree_id = tid) ∧
    (∀ r, (kernel (treeSearchArgsAt kernel (initialSearchArgs tid range) i)).getLast?
          = some r →
      (treeSearchArgsAt kernel (initialSearchArgs tid range) (i + 1)).min_objectid
          = (SearchKey.next (SearchKey.fromHeader r.header)).objectid ∧
      (treeSearchArgsAt kernel (initialSearchArgs tid range) (i + 1)).min_type
          = (SearchKey.next (SearchKey.fromHeader r.header)).typ ∧
      (treeSearchArgsAt kernel (initialSearchArgs tid range) (i + 1)).min_offset
          = (SearchKey.next (SearchKey.fromHeader r.header)).offset) := by
  have frame : ∀ a : SearchKeyArgs,
      (treeSearchArgsStep kernel a).max_objectid = a.max_objectid ∧
      (treeSearchArgsStep kernel a).max_type = a.max_type ∧
      (treeSearchArgsStep kernel a).max_offset = a.max_offset ∧
      (treeSearchArgsStep kernel a).min_transid = a.min_transid ∧
      (treeSearchArgsStep kernel a).max_transid = a.max_transid ∧
      (treeSearchArgsStep kernel a).tree_id = a.tree_id := by
    intro a
    unfold treeSearchArgsStep
    rcases (kernel a).getLast? with _ | r <;> simp [setMinKey]
  constructor
  · induction i with
    | zero => simp [treeSearchArgsAt, initialSearchArgs]
    | succ n ih =>
      obtain ⟨i1, i2, i3, i4, i5, i6⟩ := ih
      obtain ⟨f1, f2, f3, f4, f5, f6⟩ :=
        frame (treeSearchArgsAt kernel (initialSearchArgs tid range) n)
      simp only [treeSearchArgsAt]
      exact ⟨f1.trans i1, f2.trans i2, f3.trans i3, f4.trans i4,
        f5.trans i5, f6.trans i6⟩
  · intro r hr
    simp only [treeSearchArgsAt]
    unfold treeSearchArgsStep
    rw [hr]
    simp [setMinKey]

/-- Witness for C5 with a constant one-record oracle at iteration 0. -/
theorem claim_C5_witness :
    (treeSearchArgsAt (fun _ => [⟨⟨0, 0, 0, 0, 0⟩, []⟩])
        (initialSearchArgs 1 SearchKey.ALL) 1).min_offset = 1 := by
  have h := (claim_C5_pagination_frame (fun _ => [⟨⟨0, 0, 0, 0, 0⟩, []⟩])
      1 SearchKey.ALL 0).2 ⟨⟨0, 0, 0, 0, 0⟩, []⟩ rfl
  rw [h.2.2]
  rfl

/-- Appending a chunk that starts at the running total preserves
contiguity. -/
theorem chunksContiguous_append_one (c : ChunkInfo) :
    ∀ (cs : List ChunkInfo) (b : Nat), ChunksContiguous b cs →
      c.pos = b + (cs.map ChunkInfo.chunk_length).sum →
      ChunksContiguous b (cs ++ [c]) := by
  intro cs
  induction cs with
  | nil =>
    intro b _ hp
    exact ⟨by simpa using hp, trivial⟩
  | cons d rest ih =>
    intro b hcc hp
    obtain ⟨h1, h2⟩ := hcc
    refine ⟨h1, ih (b + d.chunk_length) h2 ?_⟩
    simp at hp ⊢
    omega

/-- The chunk-scan fold keeps the chunk list contiguous from zero and the
running total equal to the sum of recorded lengths. -/
theorem chunkScan_invariant (recs : List SearchRecord) :
    ∀ (cs : List ChunkInfo) (n : Nat), ChunksContiguous 0 cs →
      n = (cs.map ChunkInfo.chunk_length).sum →
      ChunksContiguous 0 (recs.foldl chunkScanStep (cs, n)).1 ∧
      (recs.foldl chunkScanStep (cs, n)).2 =
        ((recs.foldl chunkScanStep (cs, n)).1.map ChunkInfo.chunk_length).sum := by
  induction recs with
  | nil =>
    intro cs n h1 h2
    exact ⟨h1, h2⟩
  | cons r rest ih =>
    intro cs n h1 h2
    simp only [List.foldl]
    by_cases ht : r.header.typ = BTRFS_CHUNK_ITEM_KEY
    · have hstep : chunkScanStep (cs, n) r =
          (cs ++ [⟨n, r.header.offset, leU64 r.data, leU64 (r.data.drop 40)⟩],
            n + leU64 r.data) := by
        simp [chunkScanStep, ht]
      rw [hstep]
      apply ih
      · exact chunksContiguous_append_one _ cs 0 h1 (by simpa using h2)
      · simp [h2]
    · have hstep : chunkScanStep (cs, n) r = (cs, n) := by
        simp [chunkScanStep, ht]
      rw [hstep]
      exact ih cs n h1 h2

/-- Positions below the base of a contiguous chunk list are covered by no
chunk. -/
theorem countP_cover_zero_of_lt (p : Nat) :
    ∀ (cs : List ChunkInfo) (b : Nat), ChunksContiguous b cs → p < b →
      cs.countP
        (fun c => decide (c.pos ≤ p) && decide (p < c.pos + c.chunk_length)) = 0 := by
  intro cs
  induction cs with
  | nil => intro b _ _; rfl
  | cons c rest ih =>
    intro b h hp
    obtain ⟨h1, h2⟩ := h
    rw [List.countP_cons]
    have hc : ¬ (c.pos ≤ p) := by omega
    have hhead : (decide (c.pos ≤ p) && decide (p < c.pos + c.chunk_length)) = false := by
      simp [hc]
    rw [hhead]
    simp only [Bool.false_eq_true, if_false, add_zero]
    exact ih (b + c.chunk_length) h2 (by omega)

/-- Every position inside a contiguous chunk list is covered by exactly
one chunk. -/
theorem countP_cover_one (p : Nat) :
    ∀ (cs : List ChunkInfo) (b : Nat), ChunksContiguous b cs →
      b ≤ p → p < b + (cs.map ChunkInfo.chunk_length).sum →
      cs.countP
        (fun c => decide (c.pos ≤ p) && decide (p < c.pos + c.chunk_length)) = 1 := by
  intro cs
  induction cs with
  | nil =>
    intro b _ hb hp
    simp at hp
    omega
  | cons c rest ih =>
    intro b h hb hp
    obtain ⟨h1, h2⟩ := h
    rw [List.countP_cons]
    by_cases hc : p < b + c.chunk_length
    · have hhead : (decide (c.pos ≤ p) && decide (p < c.pos + c.chunk_length)) = true := by
        have hle : c.pos ≤ p := by omega
        have hlt : p < c.pos + c.chunk_length := by omega
        simp [hle, hlt]
      rw [countP_cover_zero_of_lt p rest (b + c.chunk_length) h2 hc, hhead]
      simp
    · have hhead : (decide (c.pos ≤ p) && decide (p < c.pos + c.chunk_length)) = false := by
        have hge : ¬ (p < c.pos + c.chunk_length) := by omega
        simp [hge]
      rw [hhead]
      simp only [Bool.false_eq_true, if_false, add_zero]
      refine ih (b + c.chunk_length) h2 (by omega) ?_
      simp at hp
      omega

/-- The position of the i-th chunk of a contiguous list is the base plus
the lengths before it. -/
theorem chunksContiguous_get :
    ∀ (cs : List ChunkInfo) (b : Nat), ChunksContiguous b cs →
      ∀ (i : Nat) (h : i < cs.length),
        (cs.get ⟨i, h⟩).pos = b + ((cs.take i).map ChunkInfo.chunk_length).sum := by
  intro cs
  induction cs with
  | nil => intro b _ i h; simp at h
  | cons c rest ih =>
    intro b hcc i h
    obtain ⟨h1, h2⟩ := hcc
    cases i with
    | zero => simpa using h1
    | succ j =>
      have := ih (b + c.chunk_length) h2 j (by simpa using h)
      simp only [List.get_cons_succ, List.take_succ_cons, List.map_cons, List.sum_cons]
      rw [this]
      omega

/-- Sums of longer prefixes are at least sums of shorter ones. -/
theorem sum_map_take_mono (f : ChunkInfo → Nat) (l : List ChunkInfo) :
    ∀ m n, m ≤ n → ((l.take m).map f).sum ≤ ((l.take n).map f).sum := by
  intro m n h
  induction n with
  | zero =>
    have : m = 0 := by omega
    simp [this]
  | succ k ih =>
    rcases Nat.lt_or_ge m (k + 1) with hm | hm
    · have h1 := ih (by omega)
      have h2 : ((l.take k).map f).sum ≤ ((l.take (k + 1)).map f).sum := by
        rw [List.take_succ]
        simp
      omega
    · have : m = k + 1 := by omega
      simp [this]

/-- C6: after chunk enumeration the recorded chunk lengths sum to the
total chunk length; each chunk position is the exclusive prefix sum of the
preceding lengths (contiguous from zero); every position below the total
is covered by exactly one chunk, and the linear find used by the sampling
loop succeeds on it; and when every chunk length is positive (as for real
chunks) the positions are strictly increasing. -/
theorem claim_C6_chunk_map (recs : List SearchRecord) :
    ((enumChunks recs).1.map ChunkInfo.chunk_length).sum = (enumChunks recs).2 ∧
    (∀ (i : Nat) (h : i < (enumChunks recs).1.length),
      ((enumChunks recs).1.get ⟨i, h⟩).pos =
        (((enumChunks recs).1.take i).map ChunkInfo.chunk_length).sum) ∧
    (∀ p, p < (enumChunks recs).2 →
      (enumChunks recs).1.countP
          (fun c => decide (c.pos ≤ p) && decide (p < c.pos + c.chunk_length)) = 1 ∧
      ((enumChunks recs).1.find?
          (fun c => decide (c.pos ≤ p) && decide (p < c.pos + c.chunk_length))).isSome) ∧
    ((∀ c ∈ (enumChunks recs).1, 0 < c.chunk_length) →
      ∀ (i j : Nat) (hi : i < (enumChunks recs).1.length)
          (hj : j < (enumChunks recs).1.length), i < j →
        ((enumChunks recs).1.get ⟨i, hi⟩).pos < ((enumChunks recs).1.get ⟨j, hj⟩).pos) := by
  obtain ⟨hcc0, hsum0⟩ := chunkScan_invariant recs [] 0 trivial rfl
  have hcc : ChunksContiguous 0 (enumChunks recs).1 := hcc0
  have hsum : (enumChunks recs).2 =
      ((enumChunks recs).1.map ChunkInfo.chunk_length).sum := hsum0
  refine ⟨hsum.symm, ?_, ?_, ?_⟩
  · intro i h
    simpa using chunksContiguous_get (enumChunks recs).1 0 hcc i h
  · intro p hp
    rw [hsum] at hp
    have h1 := countP_cover_one p (enumChunks recs).1 0 hcc (by omega) (by omega)
    refine ⟨h1, ?_⟩
    have h2 : 0 < (enumChunks recs).1.countP
        (fun c => decide (c.pos ≤ p) && decide (p < c.pos + c.chunk_length)) := by
      omega
    rw [List.countP_pos_iff] at h2
    obtain ⟨c, hc1, hc2⟩ := h2
    rw [List.find?_isSome]
    exact ⟨c, hc1, hc2⟩
  · intro hpos i j hi hj hij
    rw [chunksContiguous_get (enumChunks recs).1 0 hcc i hi,
      chunksContiguous_get (enumChunks recs).1 0 hcc j hj]
    simp only [Nat.zero_add]
    have mono := sum_map_take_mono ChunkInfo.chunk_length (enumChunks recs).1
      (i + 1) j hij
    have hstep := List.sum_take_succ
      ((enumChunks recs).1.map ChunkInfo.chunk_length) i (by simpa using hi)
    have hgi : 0 < ((enumChunks recs).1.get ⟨i, hi⟩).chunk_length :=
      hpos _ (List.get_mem _ _ _)
    simp only [List.map_take] at mono ⊢
    rw [hstep] at mono
    have hget : ((enumChunks recs).1.map ChunkInfo.chunk_length).get
        ⟨i, by simpa using hi⟩ = ((enumChunks recs).1.get ⟨i, hi⟩).chunk_length := by
      simp
    simp only [List.get_eq_getElem] at hget hgi
    omega

/-- Witness for C6 on a two-chunk enumeration (lengths 100 and 50), at
position 120 inside the second chunk. -/
theorem claim_C6_witness :
    ((enumChunks [⟨⟨0, 0, 1000, 228, 0⟩, [100]⟩, ⟨⟨0, 0, 2000, 228, 0⟩, [50]⟩]).1.countP
        (fun c => decide (c.pos ≤ 120) && decide (120 < c.pos + c.chunk_length))) = 1 :=
  ((claim_C6_chunk_map [⟨⟨0, 0, 1000, 228, 0⟩, [100]⟩,
      ⟨⟨0, 0, 2000, 228, 0⟩, [50]⟩]).2.2.1 120 (by decide)).1

/-- Looking up any key after get_or_create_child composed with a mutation:
the touched key maps to the mutated (existing or fresh) child, all other
keys are untouched. -/
theorem lookupChild_getOrCreateUpdate (cs : List (String × SampleTree))
    (k k' : String) (f : SampleTree → SampleTree) :
    lookupChild (getOrCreateUpdate cs k f) k' =
      if k = k' then some (f ((lookupChild cs k).getD SampleTree.new))
      else lookupChild cs k' := by
  induction cs with
  | nil => simp [getOrCreateUpdate, lookupChild]
  | cons kv rest ih =>
    obtain ⟨k0, c0⟩ := kv
    by_cases h0 : k0 = k
    · subst h0
      by_cases h1 : k0 = k'
      · subst h1
        simp [getOrCreateUpdate, lookupChild]
      · simp [getOrCreateUpdate, lookupChild, h1]
    · by_cases h1 : k0 = k'
      · subst h1
        have hkk : ¬ (k = k0) := fun h => h0 h.symm
        simp [getOrCreateUpdate, lookupChild, h0, hkk]
      · simp [getOrCreateUpdate, lookupChild, h0, h1, ih]

/-- totalAt at the empty path is the node total. -/
theorem totalAt_nil_eq_total (t : SampleTree) : totalAt t [] = t.total := by
  cases t
  rfl

/-- totalAt through one path component. -/
theorem totalAt_node_cons (t : Nat) (cs : List (String × SampleTree))
    (k : String) (ks : List String) :
    totalAt (SampleTree.node t cs) (k :: ks) =
      ((lookupChild cs k).map (fun c => totalAt c ks)).getD 0 := by
  cases h : lookupChild cs k <;> simp [totalAt, subtreeAt, h]

/-- The empty tree records nothing anywhere. -/
theorem totalAt_new (q : List String) : totalAt SampleTree.new q = 0 := by
  cases q with
  | nil => rfl
  | cons k ks => simp [SampleTree.new, totalAt_node_cons, lookupChild]

/-- Effect of one add_sample on the total recorded at any path: exactly
the prefixes of the added path gain one. -/
theorem totalAt_add_sample (p q : List String) :
    ∀ t : SampleTree, totalAt (SampleTree.add_sample p t) q =
      totalAt t q + (if q.isPrefixOf p then 1 else 0) := by
  induction q generalizing p with
  | nil =>
    intro t
    cases t with
    | node tt cs =>
      cases p <;>
        simp [SampleTree.add_sample, totalAt_nil_eq_total, SampleTree.total,
          List.isPrefixOf]
  | cons k ks ih =>
    intro t
    cases t with
    | node tt cs =>
      cases p with
      | nil =>
        simp [SampleTree.add_sample, totalAt_node_cons, List.isPrefixOf]
      | cons x xs =>
        show totalAt (SampleTree.node (tt + 1)
            (getOrCreateUpdate cs x (fun c => SampleTree.add_sample xs c))) (k :: ks) = _
        rw [totalAt_node_cons, totalAt_node_cons, lookupChild_getOrCreateUpdate]
        by_cases hx : x = k
        · subst hx
          cases hl : lookupChild cs x with
          | some c =>
            simp only [hl, if_pos rfl, if_true, Option.getD_some, Option.map_some,
              Option.map_some']
            rw [ih xs c]
            simp [List.isPrefixOf]
          | none =>
            simp only [hl, if_pos rfl, if_true, Option.getD_none, Option.getD_some,
              Option.map_some, Option.map_some']
            rw [ih xs SampleTree.new, totalAt_new]
            simp [List.isPrefixOf]
        · have hkx : (k == x) = false := by
            simp
            exact fun h => hx h.symm
          simp [hx, List.isPrefixOf, hkx]

/-- Effect of a whole sequence of add_samples on the total at any path. -/
theorem totalAt_foldl_add_sample (ps : List (List String)) :
    ∀ (t0 : SampleTree) (q : List String),
      totalAt (ps.foldl (fun t p => SampleTree.add_sample p t) t0) q =
        totalAt t0 q + ps.countP (fun p => q.isPrefixOf p) := by
  induction ps with
  | nil => simp
  | cons p rest ih =>
    intro t0 q
    simp only [List.foldl, List.countP_cons]
    rw [ih, totalAt_add_sample]
    cases h : q.isPrefixOf p <;> simp [h] <;> omega

/-- C7: after any sequence of add_sample calls on an initially empty
SampleTree, the root total is the number of calls, and the total of every
existing node equals the number of added paths that pass through it (have
the node path as a prefix). -/
theorem claim_C7_sampleTree_totals (ps : List (List String)) :
    (buildTree ps).total = ps.length ∧
    (∀ (q : List String) (t' : SampleTree), subtreeAt (buildTree ps) q = some t' →
      t'.total = ps.countP (fun p => q.isPrefixOf p)) := by
  constructor
  · have hq : totalAt (buildTree ps) [] =
        totalAt SampleTree.new [] + ps.countP (fun p => [].isPrefixOf p) :=
      totalAt_foldl_add_sample ps SampleTree.new []
    rw [totalAt_nil_eq_total] at hq
    rw [hq]
    have hall : ps.countP (fun p => [].isPrefixOf p) = ps.length :=
      List.countP_eq_length.mpr (fun a _ => by simp [List.isPrefixOf])
    simp [hall, totalAt_new]
  · intro q t' h
    have hq : totalAt (buildTree ps) q =
        totalAt SampleTree.new q + ps.countP (fun p => q.isPrefixOf p) :=
      totalAt_foldl_add_sample ps SampleTree.new q
    rw [totalAt_new] at hq
    have h1 : totalAt (buildTree ps) q = t'.total := by
      simp [totalAt, h]
    rw [h1] at hq
    simpa using hq

/-- Witness for C7 on the sample sequence a/b, a, c at node path a. -/
theorem claim_C7_witness :
    (SampleTree.node 2 [(r"b", SampleTree.node 1 [])]).total =
      List.countP (fun p => List.isPrefixOf [r"a"] p)
        [[r"a", r"b"], [r"a"], [r"c"]] :=
  (claim_C7_sampleTree_totals [[r"a", r"b"], [r"a"], [r"c"]]).2 [r"a"]
    (SampleTree.node 2 [(r"b", SampleTree.node 1 [])]) (by rfl)

/-- Unfolding law for SampleTree.add. -/
theorem SampleTree.add_node (ta : Nat) (ca : List (String × SampleTree))
    (tb : Nat) (cb : List (String × SampleTree)) :
    (SampleTree.node ta ca).add (SampleTree.node tb cb) =
      .node (ta + tb) (addChildren ca cb) := by
  rw [SampleTree.add]

/-- Unfolding law for addChildren on nil. -/
theorem addChildren_nil (ca : List (String × SampleTree)) :
    addChildren ca [] = ca := by
  rw [addChildren]

/-- Unfolding law for addChildren on cons. -/
theorem addChildren_cons (ca : List (String × SampleTree)) (k : String)
    (v : SampleTree) (rest : List (String × SampleTree)) :
    addChildren ca ((k, v) :: rest) =
      addChildren (getOrCreateUpdate ca k (fun c => c.add v)) rest := by
  rw [addChildren]

/-- Unfolding law for SampleTree.sub?. -/
theorem SampleTree.sub?_node (ta : Nat) (ca : List (String × SampleTree))
    (tb : Nat) (cb : List (String × SampleTree)) :
    (SampleTree.node ta ca).sub? (SampleTree.node tb cb) =
      if tb ≤ ta then
        if ta - tb = 0 then some (.node 0 [])
        else
          match subChildren ca cb with
          | some ca' => some (.node (ta - tb) ca')
          | none => none
      else none := by
  rw [SampleTree.sub?]

/-- Unfolding law for subChildren on nil. -/
theorem subChildren_nil (ca : List (String × SampleTree)) :
    subChildren ca [] = some ca := by
  rw [subChildren]

/-- Unfolding law for subChildren on cons. -/
theorem subChildren_cons (ca : List (String × SampleTree)) (k : String)
    (v : SampleTree) (rest : List (String × SampleTree)) :
    subChildren ca ((k, v) :: rest) =
      match subOneChild ca k v with
      | some ca' => subChildren ca' rest
      | none => none := by
  rw [subChildren]

/-- Unfolding law for subOneChild on nil. -/
theorem subOneChild_nil (k : String) (v : SampleTree) :
    subOneChild [] k v = some [] := by
  rw [subOneChild]

/-- Unfolding law for subOneChild on cons. -/
theorem subOneChild_cons (k' : String) (c : SampleTree)
    (cs : List (String × SampleTree)) (k : String) (v : SampleTree) :
    subOneChild ((k', c) :: cs) k v =
      if k' = k then (c.sub? v).map (fun c' => (k', c') :: cs)
      else (subOneChild cs k v).map (fun l => (k', c) :: l) := by
  rw [subOneChild]

/-- Unfolding law for prune. -/
theorem SampleTree.prune_node (t : Nat) (cs : List (String × SampleTree)) :
    (SampleTree.node t cs).prune = .node t (pruneChildren cs) := by
  rw [SampleTree.prune]

/-- Unfolding law for pruneChildren on nil. -/
theorem pruneChildren_nil : pruneChildren [] = [] := by
  rw [pruneChildren]

/-- Unfolding law for pruneChildren on cons. -/
theorem pruneChildren_cons (k : String) (c : SampleTree)
    (rest : List (String × SampleTree)) :
    pruneChildren ((k, c) :: rest) =
      if c.total = 0 then pruneChildren rest
      else (k, c.prune) :: pruneChildren rest := by
  rw [pruneChildren]

/-- A key is absent exactly when lookup fails. -/
theorem lookupChild_eq_none_iff (cs : List (String × SampleTree)) (k : String) :
    lookupChild cs k = none ↔ k ∉ keysOf cs := by
  induction cs with
  | nil => simp [lookupChild, keysOf]
  | cons kv rest ih =>
    obtain ⟨k0, c0⟩ := kv
    by_cases h0 : k0 = k
    · subst h0
      simp [lookupChild, keysOf]
    · simp [lookupChild, keysOf, h0, ih]
      tauto

/-- A successful lookup produces an entry of the list. -/
theorem lookupChild_mem (cs : List (String × SampleTree)) (k : String)
    (c : SampleTree) (h : lookupChild cs k = some c) : (k, c) ∈ cs := by
  induction cs with
  | nil => simp [lookupChild] at h
  | cons kv rest ih =>
    obtain ⟨k0, c0⟩ := kv
    by_cases h0 : k0 = k
    · subst h0
      simp [lookupChild] at h
      simp [h]
    · simp [lookupChild, h0] at h
      exact List.mem_cons_of_mem _ (ih h)

/-- Entries are smaller than their list. -/
theorem sizeOf_snd_lt_of_mem (cs : List (String × SampleTree))
    (kv : String × SampleTree) (h : kv ∈ cs) : sizeOf kv.2 < sizeOf cs := by
  induction cs with
  | nil => simp at h
  | cons kv0 rest ih =>
    rcases List.mem_cons.mp h with h0 | h0
    · subst h0
      obtain ⟨k, v⟩ := kv
      simp
      omega
    · have := ih h0
      simp
      omega

/-- A looked-up child is smaller than the node that holds it. -/
theorem sizeOf_lookupChild_lt (t : Nat) (cs : List (String × SampleTree))
    (k : String) (c : SampleTree) (h : lookupChild cs k = some c) :
    sizeOf c < sizeOf (SampleTree.node t cs) := by
  have h1 := sizeOf_snd_lt_of_mem cs (k, c) (lookupChild_mem cs k c h)
  simp at h1 ⊢
  omega

/-- The keys after get_or_create_child: unchanged when the key existed,
the key appended otherwise. -/
theorem keysOf_getOrCreateUpdate (cs : List (String × SampleTree)) (k : String)
    (f : SampleTree → SampleTree) :
    keysOf (getOrCreateUpdate cs k f) =
      if k ∈ keysOf cs then keysOf cs else keysOf cs ++ [k] := by
  induction cs with
  | nil => simp [getOrCreateUpdate, keysOf]
  | cons kv rest ih =>
    obtain ⟨k0, c0⟩ := kv
    by_cases h0 : k0 = k
    · subst h0
      simp [getOrCreateUpdate, keysOf]
    · have hne : ¬ (k = k0) := fun h => h0 h.symm
      simp only [getOrCreateUpdate, if_neg h0, keysOf, List.map_cons]
      rw [show keysOf (getOrCreateUpdate rest k f) =
        List.map Prod.fst (getOrCreateUpdate rest k f) from rfl] at ih
      rw [ih]
      by_cases hmem : k ∈ List.map Prod.fst rest
      · simp [hmem, hne, keysOf]
      · simp [hmem, hne, keysOf]

/-- Every entry after get_or_create_child is an original entry or the
mutated entry at the touched key. -/
theorem getOrCreateUpdate_entries (cs : List (String × SampleTree)) (k : String)
    (f : SampleTree → SampleTree) :
    ∀ kv ∈ getOrCreateUpdate cs k f,
      kv ∈ cs ∨ (kv.1 = k ∧ kv.2 = f ((lookupChild cs k).getD SampleTree.new)) := by
  induction cs with
  | nil =>
    intro kv hm
    simp [getOrCreateUpdate] at hm
    subst hm
    simp [lookupChild]
  | cons kv0 rest ih =>
    obtain ⟨k0, c0⟩ := kv0
    intro kv hm
    by_cases h0 : k0 = k
    · subst h0
      simp only [getOrCreateUpdate, if_pos rfl] at hm
      rcases List.mem_cons.mp hm with h1 | h1
      · subst h1
        right
        simp [lookupChild]
      · left
        exact List.mem_cons_of_mem _ h1
    · simp only [getOrCreateUpdate, if_neg h0] at hm
      rcases List.mem_cons.mp hm with h1 | h1
      · subst h1
        left
        simp
      · rcases ih kv h1 with h2 | h2
        · left
          exact List.mem_cons_of_mem _ h2
        · right
          simpa [lookupChild, h0] using h2

/-- sub on a missing child is a no-op on the children list. -/
theorem subOneChild_lookup_none (ca : List (String × SampleTree)) (k : String)
    (v : SampleTree) (h : lookupChild ca k = none) :
    subOneChild ca k v = some ca := by
  induction ca with
  | nil => exact subOneChild_nil k v
  | cons kv rest ih =>
    obtain ⟨k0, c0⟩ := kv
    by_cases h0 : k0 = k
    · subst h0
      simp [lookupChild] at h
    · simp only [lookupChild, if_neg h0] at h
      rw [subOneChild_cons, if_neg h0, ih h]
      rfl

/-- When the recursive subtraction under a present child panics, the loop
iteration panics. -/
theorem subOneChild_some_none (ca : List (String × SampleTree)) (k : String)
    (v c : SampleTree) (hl : lookupChild ca k = some c) (hs : c.sub? v = none) :
    subOneChild ca k v = none := by
  induction ca with
  | nil => simp [lookupChild] at hl
  | cons kv rest ih =>
    obtain ⟨k0, c0⟩ := kv
    by_cases h0 : k0 = k
    · subst h0
      simp only [lookupChild, if_pos rfl, if_true, Option.some.injEq] at hl
      subst hl
      rw [subOneChild_cons, if_pos rfl, hs]
      rfl
    · simp only [lookupChild, if_neg h0] at hl
      rw [subOneChild_cons, if_neg h0, ih hl]
      rfl

/-- When the recursive subtraction under a present child succeeds, the
loop iteration replaces exactly that child. -/
theorem subOneChild_some_some (ca : List (String × SampleTree)) (k : String)
    (v c c' : SampleTree) (hl : lookupChild ca k = some c)
    (hs : c.sub? v = some c') :
    ∃ ca', subOneChild ca k v = some ca' ∧
      lookupChild ca' k = some c' ∧
      (∀ k', k' ≠ k → lookupChild ca' k' = lookupChild ca k') ∧
      keysOf ca' = keysOf ca ∧
      (∀ kv ∈ ca', kv ∈ ca ∨ (kv.1 = k ∧ kv.2 = c')) := by
  induction ca with
  | nil => simp [lookupChild] at hl
  | cons kv rest ih =>
    obtain ⟨k0, c0⟩ := kv
    by_cases h0 : k0 = k
    · subst h0
      simp only [lookupChild, if_pos rfl, if_true, Option.some.injEq] at hl
      subst hl
      refine ⟨(k0, c') :: rest, ?_, ?_, ?_, ?_, ?_⟩
      · rw [subOneChild_cons, if_pos rfl, hs]
        rfl
      · simp [lookupChild]
      · intro k' hk'
        have : ¬ (k0 = k') := fun h => hk' h.symm
        simp [lookupChild, this]
      · simp [keysOf]
      · intro kv hm
        rcases List.mem_cons.mp hm with h1 | h1
        · subst h1
          right
          exact ⟨rfl, rfl⟩
        · left
          exact List.mem_cons_of_mem _ h1
    · simp only [lookupChild, if_neg h0] at hl
      obtain ⟨ca', h1, h2, h3, h4, h5⟩ := ih hl
      refine ⟨(k0, c0) :: ca', ?_, ?_, ?_, ?_, ?_⟩
      · rw [subOneChild_cons, if_neg h0, h1]
        rfl
      · simp [lookupChild, h0, h2]
      · intro k' hk'
        by_cases h0' : k0 = k'
        · subst h0'
          simp [lookupChild]
        · simp [lookupChild, h0', h3 k' hk']
      · simp only [keysOf, List.map_cons]
        exact congrArg (List.cons k0) h4
      · intro kv hm
        rcases List.mem_cons.mp hm with hm1 | hm1
        · subst hm1
          left
          simp
        · rcases h5 kv hm1 with h6 | h6
          · left
            exact List.mem_cons_of_mem _ h6
          · right
            exact h6

/-- One sub iteration never changes the key list. -/
theorem subOneChild_keys (ca : List (String × SampleTree)) (k : String)
    (v : SampleTree) (ca₁ : List (String × SampleTree))
    (h : subOneChild ca k v = some ca₁) : keysOf ca₁ = keysOf ca := by
  cases hl : lookupChild ca k with
  | none =>
    rw [subOneChild_lookup_none ca k v hl] at h
    cases h
    rfl
  | some c =>
    cases hs : c.sub? v with
    | none =>
      rw [subOneChild_some_none ca k v c hl hs] at h
      cases h
    | some c' =>
      obtain ⟨ca'', h1, _, _, h4, _⟩ := subOneChild_some_some ca k v c c' hl hs
      rw [h1] at h
      cases h
      exact h4

/-- A successful lookup key is among the keys. -/
theorem mem_keysOf_of_lookup (cs : List (String × SampleTree)) (k : String)
    (c : SampleTree) (h : lookupChild cs k = some c) : k ∈ keysOf cs := by
  have := lookupChild_mem cs k c h
  exact List.mem_map_of_mem Prod.fst this

/-- The sub loop never changes the key list. -/
theorem subChildren_keys (cb : List (String × SampleTree)) :
    ∀ ca ca', subChildren ca cb = some ca' → keysOf ca' = keysOf ca := by
  induction cb with
  | nil =>
    intro ca ca' h
    rw [subChildren_nil] at h
    cases h
    rfl
  | cons kv rest ih =>
    obtain ⟨k, v⟩ := kv
    intro ca ca' h
    rw [subChildren_cons] at h
    cases h1 : subOneChild ca k v with
    | none => rw [h1] at h; cases h
    | some ca₁ =>
      rw [h1] at h
      exact (ih ca₁ ca' h).trans (subOneChild_keys ca k v ca₁ h1)

/-- The sub loop succeeds exactly when every matched child pair subtracts
without panic (keys of other are duplicate-free, as HashMap keys are). -/
theorem subChildren_isSome_iff (cb : List (String × SampleTree))
    (hnd : (keysOf cb).Nodup) :
    ∀ ca, (subChildren ca cb).isSome ↔
      ∀ k bv av, lookupChild cb k = some bv → lookupChild ca k = some av →
        (av.sub? bv).isSome := by
  induction cb with
  | nil =>
    intro ca
    rw [subChildren_nil]
    simp [lookupChild]
  | cons kv rest ih =>
    obtain ⟨k, v⟩ := kv
    have hk : k ∉ keysOf rest := by
      simp [keysOf] at hnd ⊢
      exact hnd.1
    have hndr : (keysOf rest).Nodup := by
      simp [keysOf] at hnd ⊢
      exact hnd.2
    intro ca
    rw [subChildren_cons]
    cases hl : lookupChild ca k with
    | none =>
      rw [subOneChild_lookup_none ca k v hl]
      rw [ih hndr ca]
      constructor
      · intro hR k' bv av hb ha
        by_cases hk' : k' = k
        · subst hk'
          simp only [lookupChild, if_pos rfl, if_true, Option.some.injEq] at hb
          subst hb
          rw [hl] at ha
          cases ha
        · have hkk : ¬ (k = k') := fun h => hk' h.symm
          simp only [lookupChild, if_neg hkk] at hb
          exact hR k' bv av hb ha
      · intro hR k' bv av hb ha
        by_cases hk' : k' = k
        · subst hk'
          exact absurd (mem_keysOf_of_lookup rest k' bv hb) hk
        · have hkk : ¬ (k = k') := fun h => hk' h.symm
          exact hR k' bv av (by simp only [lookupChild, if_neg hkk]; exact hb) ha
    | some c =>
      cases hs : c.sub? v with
      | none =>
        rw [subOneChild_some_none ca k v c hl hs]
        simp only [Option.isSome_none]
        constructor
        · intro h; cases h
        · intro hR
          have := hR k v c (by simp [lookupChild]) hl
          rw [hs] at this
          cases this
      | some c' =>
        obtain ⟨ca₁, h1, h2, h3, _, _⟩ := subOneChild_some_some ca k v c c' hl hs
        rw [h1, ih hndr ca₁]
        constructor
        · intro hR k' bv av hb ha
          by_cases hk' : k' = k
          · subst hk'
            simp only [lookupChild, if_pos rfl, if_true, Option.some.injEq] at hb
            subst hb
            rw [hl] at ha
            cases ha
            rw [hs]
            rfl
          · have hkk : ¬ (k = k') := fun h => hk' h.symm
            simp only [lookupChild, if_neg hkk] at hb
            rw [← h3 k' hk'] at ha
            exact hR k' bv av hb ha
        · intro hR k' bv av hb ha
          have hk' : k' ≠ k := by
            intro hkk
            subst hkk
            exact hk (mem_keysOf_of_lookup rest k' bv hb)
          have hkk : ¬ (k = k') := fun h => hk' h.symm
          rw [h3 k' hk'] at ha
          exact hR k' bv av
            (by simp only [lookupChild, if_neg hkk]; exact hb) ha

/-- Lookup after a successful sub loop: matched pairs are replaced by the
subtracted child, everything else is untouched. -/
theorem subChildren_some_lookup (cb : List (String × SampleTree))
    (hnd : (keysOf cb).Nodup) :
    ∀ ca ca', subChildren ca cb = some ca' →
      ∀ k, lookupChild ca' k =
        match lookupChild cb k, lookupChild ca k with
        | some bv, some av => av.sub? bv
        | _, _ => lookupChild ca k := by
  induction cb with
  | nil =>
    intro ca ca' h k
    rw [subChildren_nil] at h
    cases h
    simp [lookupChild]
  | cons kv rest ih =>
    obtain ⟨k0, v0⟩ := kv
    have hk : k0 ∉ keysOf rest := by
      simp [keysOf] at hnd ⊢
      exact hnd.1
    have hndr : (keysOf rest).Nodup := by
      simp [keysOf] at hnd
      exact hnd.2
    intro ca ca' h k
    rw [subChildren_cons] at h
    cases hl : lookupChild ca k0 with
    | none =>
      rw [subOneChild_lookup_none ca k0 v0 hl] at h
      have hres := ih hndr ca ca' h k
      by_cases hk0 : k0 = k
      · subst hk0
        have hrest : lookupChild rest k0 = none :=
          (lookupChild_eq_none_iff rest k0).mpr hk
        rw [hrest] at hres
        simp only [lookupChild, if_pos rfl, if_true, hl]
        rw [hres]
        cases hlk : lookupChild ca k0 with
        | none => rfl
        | some av => rw [hl] at hlk; cases hlk
      · simp only [lookupChild, if_neg hk0]
        exact hres
    | some c =>
      cases hs : c.sub? v0 with
      | none =>
        rw [subOneChild_some_none ca k0 v0 c hl hs] at h
        cases h
      | some c' =>
        obtain ⟨ca₁, h1, h2, h3, _, _⟩ := subOneChild_some_some ca k0 v0 c c' hl hs
        rw [h1] at h
        have hres := ih hndr ca₁ ca' h k
        by_cases hk0 : k0 = k
        · subst hk0
          have hrest : lookupChild rest k0 = none :=
            (lookupChild_eq_none_iff rest k0).mpr hk
          rw [hrest] at hres
          simp only [lookupChild, if_pos rfl, if_true, hl]
          rw [hres, h2, hs]
        · simp only [lookupChild, if_neg hk0]
          rw [hres, h3 k (fun hkk => hk0 hkk.symm)]

/-- The sub loop preserves well-formedness of every child, given the
inductive hypothesis for the subtrahend children. -/
theorem subChildren_wf (cb : List (String × SampleTree))
    (hIH : ∀ kv ∈ cb, ∀ (a c : SampleTree), WfKeys a → a.sub? kv.2 = some c →
      WfKeys c) :
    ∀ ca ca', (∀ kv ∈ ca, WfKeys kv.2) → subChildren ca cb = some ca' →
      ∀ kv ∈ ca', WfKeys kv.2 := by
  induction cb with
  | nil =>
    intro ca ca' hca h
    rw [subChildren_nil] at h
    cases h
    exact hca
  | cons kv0 rest ih =>
    obtain ⟨k0, v0⟩ := kv0
    intro ca ca' hca h
    rw [subChildren_cons] at h
    cases h1 : subOneChild ca k0 v0 with
    | none => rw [h1] at h; cases h
    | some ca₁ =>
      rw [h1] at h
      have hIHr : ∀ kv ∈ rest, ∀ (a c : SampleTree), WfKeys a →
          a.sub? kv.2 = some c → WfKeys c :=
        fun kv hm => hIH kv (List.mem_cons_of_mem _ hm)
      refine ih hIHr ca₁ ca' ?_ h
      intro kv hm
      cases hl : lookupChild ca k0 with
      | none =>
        rw [subOneChild_lookup_none ca k0 v0 hl] at h1
        cases h1
        exact hca kv hm
      | some c =>
        cases hs : c.sub? v0 with
        | none =>
          rw [subOneChild_some_none ca k0 v0 c hl hs] at h1
          cases h1
        | some c' =>
          obtain ⟨ca₂, hh1, _, _, _, hh5⟩ := subOneChild_some_some ca k0 v0 c c' hl hs
          rw [hh1] at h1
          cases h1
          rcases hh5 kv hm with hmem | ⟨_, hval⟩
          · exact hca kv hmem
          · rw [hval]
            exact hIH (k0, v0) (List.mem_cons_self _ _) c c'
              (hca (k0, c) (lookupChild_mem ca k0 c hl)) hs

/-- Lookup after the add loop: children of other are merged into the
corresponding (existing or fresh) children of self, everything else is
untouched. -/
theorem addChildren_lookup (cb : List (String × SampleTree))
    (hnd : (keysOf cb).Nodup) :
    ∀ ca k, lookupChild (addChildren ca cb) k =
      match lookupChild cb k with
      | none => lookupChild ca k
      | some bv => some (((lookupChild ca k).getD SampleTree.new).add bv) := by
  induction cb with
  | nil =>
    intro ca k
    rw [addChildren_nil]
    simp [lookupChild]
  | cons kv rest ih =>
    obtain ⟨k0, v0⟩ := kv
    have hk : k0 ∉ keysOf rest := by
      simp [keysOf] at hnd ⊢
      exact hnd.1
    have hndr : (keysOf rest).Nodup := by
      simp [keysOf] at hnd
      exact hnd.2
    intro ca k
    rw [addChildren_cons]
    have hres := ih hndr (getOrCreateUpdate ca k0 (fun c => c.add v0)) k
    rw [hres]
    by_cases hk0 : k0 = k
    · subst hk0
      have hrest : lookupChild rest k0 = none :=
        (lookupChild_eq_none_iff rest k0).mpr hk
      rw [hrest]
      simp only [lookupChild, if_pos rfl, if_true]
      rw [lookupChild_getOrCreateUpdate]
      simp
    · have hkk : ¬ (k0 = k) := hk0
      simp only [lookupChild, if_neg hkk]
      rw [lookupChild_getOrCreateUpdate, if_neg hkk]

/-- The add loop preserves duplicate-free keys and well-formed children,
given the inductive hypothesis for the children of other. -/
theorem addChildren_wf (cb : List (String × SampleTree))
    (hIH : ∀ kv ∈ cb, ∀ a : SampleTree, WfKeys a → WfKeys (a.add kv.2)) :
    ∀ ca, (keysOf ca).Nodup → (∀ kv ∈ ca, WfKeys kv.2) →
      (keysOf (addChildren ca cb)).Nodup ∧
      (∀ kv ∈ addChildren ca cb, WfKeys kv.2) := by
  induction cb with
  | nil =>
    intro ca h1 h2
    rw [addChildren_nil]
    exact ⟨h1, h2⟩
  | cons kv0 rest ih =>
    obtain ⟨k0, v0⟩ := kv0
    intro ca h1 h2
    rw [addChildren_cons]
    have hIHr : ∀ kv ∈ rest, ∀ a : SampleTree, WfKeys a → WfKeys (a.add kv.2) :=
      fun kv hm => hIH kv (List.mem_cons_of_mem _ hm)
    apply ih hIHr
    · rw [keysOf_getOrCreateUpdate]
      by_cases hmem : k0 ∈ keysOf ca
      · rw [if_pos hmem]
        exact h1
      · rw [if_neg hmem]
        rw [List.nodup_append]
        refine ⟨h1, List.nodup_singleton _, ?_⟩
        intro x hx hx'
        simp at hx'
        subst hx'
        exact hmem hx
    · intro kv hm
      rcases getOrCreateUpdate_entries ca k0 (fun c => c.add v0) kv hm with hmem | ⟨_, hval⟩
      · exact h2 kv hmem
      · rw [hval]
        apply hIH (k0, v0) (List.mem_cons_self _ _)
        cases hl : lookupChild ca k0 with
        | none =>
          simp only [hl, Option.getD_none]
          exact WfKeys.node 0 [] (List.nodup_nil) (by simp)
        | some c =>
          simp only [hl, Option.getD_some]
          exact h2 (k0, c) (lookupChild_mem ca k0 c hl)

/-- Every SampleTree has positive size. -/
theorem sampleTree_sizeOf_pos (t : SampleTree) : 1 ≤ sizeOf t := by
  cases t with
  | node n cs =>
    simp
    omega

/-- The children list is smaller than the node. -/
theorem sizeOf_children_lt (t : Nat) (cs : List (String × SampleTree)) :
    sizeOf cs < sizeOf (SampleTree.node t cs) := by
  simp

/-- add preserves well-formed keys. -/
theorem add_wfKeys_aux : ∀ (n : Nat) (B : SampleTree), sizeOf B ≤ n →
    ∀ A : SampleTree, WfKeys A → WfKeys B → WfKeys (A.add B) := by
  intro n
  induction n with
  | zero =>
    intro B hB
    have := sampleTree_sizeOf_pos B
    omega
  | succ m ih =>
    intro B hB A hA hwB
    cases B with
    | node tb cb =>
      cases A with
      | node ta ca =>
        rw [SampleTree.add_node]
        cases hA with
        | node _ _ hA1 hA2 =>
          cases hwB with
          | node _ _ hB1 hB2 =>
            have hIH : ∀ kv ∈ cb, ∀ a : SampleTree, WfKeys a → WfKeys (a.add kv.2) := by
              intro kv hm a ha
              have h1 := sizeOf_snd_lt_of_mem cb kv hm
              have h2 := sizeOf_children_lt tb cb
              exact ih kv.2 (by omega) a ha (hB2 kv hm)
            obtain ⟨hh1, hh2⟩ := addChildren_wf cb hIH ca hA1 hA2
            exact WfKeys.node _ _ hh1 hh2

/-- sub preserves well-formed keys when it succeeds. -/
theorem sub?_wfKeys_aux : ∀ (n : Nat) (B : SampleTree), sizeOf B ≤ n →
    ∀ (A C : SampleTree), WfKeys A → A.sub? B = some C → WfKeys C := by
  intro n
  induction n with
  | zero =>
    intro B hB
    have := sampleTree_sizeOf_pos B
    omega
  | succ m ih =>
    intro B hB A C hA h
    cases B with
    | node tb cb =>
      cases A with
      | node ta ca =>
        rw [SampleTree.sub?_node] at h
        by_cases h1 : tb ≤ ta
        · rw [if_pos h1] at h
          by_cases h2 : ta - tb = 0
          · rw [if_pos h2] at h
            cases h
            exact WfKeys.node 0 [] List.nodup_nil (by simp)
          · rw [if_neg h2] at h
            cases hsc : subChildren ca cb with
            | none =>
              rw [hsc] at h
              cases h
            | some ca' =>
              rw [hsc] at h
              simp only [Option.some.injEq] at h
              subst h
              cases hA with
              | node _ _ hA1 hA2 =>
                have hIH : ∀ kv ∈ cb, ∀ (a c : SampleTree), WfKeys a →
                    a.sub? kv.2 = some c → WfKeys c := by
                  intro kv hm a c ha hc
                  have hs1 := sizeOf_snd_lt_of_mem cb kv hm
                  have hs2 := sizeOf_children_lt tb cb
                  exact ih kv.2 (by omega) a c ha hc
                refine WfKeys.node _ _ ?_ ?_
                · rw [subChildren_keys cb ca ca' hsc]
                  exact hA1
                · exact subChildren_wf cb hIH ca ca' hA2 hsc
        · rw [if_neg h1] at h
          cases h

/-- Extensional equality is reflexive. -/
theorem equiv_refl_aux : ∀ (n : Nat) (t : SampleTree), sizeOf t ≤ n →
    SampleTree.Equiv t t := by
  intro n
  induction n with
  | zero =>
    intro t ht
    have := sampleTree_sizeOf_pos t
    omega
  | succ m ih =>
    intro t ht
    cases t with
    | node tt cs =>
      refine SampleTree.Equiv.node _ _ rfl (fun k => rfl) ?_
      intro k c d hc hd
      rw [hc] at hd
      cases hd
      have := sizeOf_lookupChild_lt tt cs k c hc
      exact ih c (by omega)

/-- C10 core, forward and backward: sub succeeds exactly when at every
visited node the subtracted total fits. -/
theorem sub?_isSome_iff_aux : ∀ (n : Nat) (B : SampleTree), sizeOf B ≤ n →
    ∀ A : SampleTree, WfKeys B → ((A.sub? B).isSome ↔ SubLe A B) := by
  intro n
  induction n with
  | zero =>
    intro B hB
    have := sampleTree_sizeOf_pos B
    omega
  | succ m ih =>
    intro B hB A hwB
    cases B with
    | node tb cb =>
      cases A with
      | node ta ca =>
        cases hwB with
        | node _ _ hB1 hB2 =>
          rw [SampleTree.sub?_node]
          by_cases h1 : tb ≤ ta
          · by_cases h2 : ta - tb = 0
            · simp only [if_pos h1, if_pos h2, Option.isSome_some]
              constructor
              · intro _
                exact SubLe.stop ta ca tb cb h1 h2
              · intro _
                trivial
            · simp only [if_pos h1, if_neg h2]
              have hmain : (match subChildren ca cb with
                  | some ca' => some (SampleTree.node (ta - tb) ca')
                  | none => none).isSome = (subChildren ca cb).isSome := by
                cases subChildren ca cb <;> rfl
              rw [hmain]
              have hiff := subChildren_isSome_iff cb hB1 ca
              rw [hiff]
              have hsub : ∀ k bv av, lookupChild cb k = some bv →
                  lookupChild ca k = some av →
                  ((av.sub? bv).isSome ↔ SubLe av bv) := by
                intro k bv av hb _
                have hs1 := sizeOf_lookupChild_lt tb cb k bv hb
                exact ih bv (by omega) av (hB2 (k, bv) (lookupChild_mem cb k bv hb))
              constructor
              · intro hR
                refine SubLe.go ta ca tb cb h1 h2 ?_
                intro k bv av hb ha
                exact (hsub k bv av hb ha).mp (hR k bv av hb ha)
              · intro hS
                cases hS with
                | stop _ _ _ _ _ hz => exact absurd hz h2
                | go _ _ _ _ _ _ hgo =>
                  intro k bv av hb ha
                  exact (hsub k bv av hb ha).mpr (hgo k bv av hb ha)
          · simp only [if_neg h1]
            constructor
            · intro h
              simp at h
            · intro hS
              cases hS with
              | stop _ _ _ _ hle _ => exact absurd hle h1
              | go _ _ _ _ hle _ _ => exact absurd hle h1

/-- C10 core: the per-visited-node precondition always holds after a
previous add of the same tree. -/
theorem add_subLe_aux : ∀ (n : Nat) (B : SampleTree), sizeOf B ≤ n →
    ∀ A : SampleTree, WfKeys B → SubLe (A.add B) B := by
  intro n
  induction n with
  | zero =>
    intro B hB
    have := sampleTree_sizeOf_pos B
    omega
  | succ m ih =>
    intro B hB A hwB
    cases B with
    | node tb cb =>
      cases A with
      | node ta ca =>
        cases hwB with
        | node _ _ hB1 hB2 =>
          rw [SampleTree.add_node]
          by_cases h2 : ta + tb - tb = 0
          · exact SubLe.stop _ _ _ _ (by omega) h2
          · refine SubLe.go _ _ _ _ (by omega) h2 ?_
            intro k bv av hb ha
            rw [addChildren_lookup cb hB1 ca k, hb] at ha
            simp only [Option.some.injEq] at ha
            subst ha
            have hs1 := sizeOf_lookupChild_lt tb cb k bv hb
            exact ih bv (by omega) ((lookupChild ca k).getD SampleTree.new)
              (hB2 (k, bv) (lookupChild_mem cb k bv hb))

/-- claim C10 assembly appears below; first the pruning toolkit. -/
theorem prune_total (t : SampleTree) : t.prune.total = t.total := by
  cases t with
  | node tt cs =>
    rw [SampleTree.prune_node]
    rfl

/-- Pruning only removes keys. -/
theorem mem_keysOf_pruneChildren (cs : List (String × SampleTree)) :
    ∀ k, k ∈ keysOf (pruneChildren cs) → k ∈ keysOf cs := by
  induction cs with
  | nil =>
    intro k hk
    rw [pruneChildren_nil] at hk
    exact hk
  | cons kv rest ih =>
    obtain ⟨k0, c0⟩ := kv
    intro k hk
    rw [pruneChildren_cons] at hk
    by_cases h0 : c0.total = 0
    · rw [if_pos h0] at hk
      simp only [keysOf, List.map_cons, List.mem_cons]
      right
      exact ih k hk
    · rw [if_neg h0] at hk
      simp only [keysOf, List.map_cons, List.mem_cons] at hk ⊢
      rcases hk with hk | hk
      · left
        exact hk
      · right
        exact ih k hk

/-- Lookup through pruning: zero-total children disappear, the rest are
pruned in place. -/
theorem pruneChildren_lookup (cs : List (String × SampleTree))
    (hnd : (keysOf cs).Nodup) (k : String) :
    lookupChild (pruneChildren cs) k =
      match lookupChild cs k with
      | none => none
      | some c => if c.total = 0 then none else some c.prune := by
  induction cs with
  | nil =>
    rw [pruneChildren_nil]
    simp [lookupChild]
  | cons kv rest ih =>
    obtain ⟨k0, c0⟩ := kv
    have hk : k0 ∉ keysOf rest := by
      simp [keysOf] at hnd ⊢
      exact hnd.1
    have hndr : (keysOf rest).Nodup := by
      simp [keysOf] at hnd
      exact hnd.2
    rw [pruneChildren_cons]
    by_cases h0 : c0.total = 0
    · rw [if_pos h0]
      by_cases hk0 : k0 = k
      · subst hk0
        rw [ih hndr]
        have hnone : lookupChild rest k0 = none :=
          (lookupChild_eq_none_iff rest k0).mpr hk
        rw [hnone]
        simp only [lookupChild, if_pos rfl, if_true]
        simp [h0]
      · simp only [lookupChild, if_neg hk0]
        exact ih hndr
    · rw [if_neg h0]
      by_cases hk0 : k0 = k
      · subst hk0
        simp only [lookupChild, if_pos rfl, if_true]
        simp [h0]
      · simp only [lookupChild, if_neg hk0]
        exact ih hndr

/-- A member of a list of naturals is at most the sum. -/
theorem nat_le_sum_of_mem (l : List Nat) (x : Nat) (h : x ∈ l) : x ≤ l.sum := by
  induction l with
  | nil => simp at h
  | cons y rest ih =>
    rcases List.mem_cons.mp h with h1 | h1
    · subst h1
      simp
    · have := ih h1
      simp
      omega

/-- A child of a dominated node is dominated and its total is bounded by
the node total. -/
theorem totalsDom_child (t : Nat) (cs : List (String × SampleTree))
    (hD : TotalsDom (SampleTree.node t cs)) (kv : String × SampleTree)
    (hm : kv ∈ cs) : TotalsDom kv.2 ∧ kv.2.total ≤ t := by
  cases hD with
  | node _ _ h1 h2 =>
    refine ⟨h2 kv hm, ?_⟩
    have hmem : kv.2.total ∈ cs.map (fun kv => kv.2.total) :=
      List.mem_map_of_mem _ hm
    exact le_trans (nat_le_sum_of_mem _ _ hmem) h1

/-- Add/sub round trip up to pruning: for key-well-formed trees with the
children-totals invariant on A, (A + B) - B succeeds and its pruning is
extensionally equal to the pruning of A. -/
theorem addSub_prune_aux : ∀ (n : Nat) (B : SampleTree), sizeOf B ≤ n →
    ∀ A : SampleTree, WfKeys A → WfKeys B → TotalsDom A →
      ∃ C, (A.add B).sub? B = some C ∧ SampleTree.Equiv C.prune A.prune := by
  intro n
  induction n with
  | zero =>
    intro B hB
    have := sampleTree_sizeOf_pos B
    omega
  | succ m ih =>
    intro B hB A hA hwB hD
    have hsome : ((A.add B).sub? B).isSome :=
      (sub?_isSome_iff_aux (sizeOf B) B le_rfl (A.add B) hwB).mpr
        (add_subLe_aux (sizeOf B) B le_rfl A hwB)
    obtain ⟨C, hC⟩ := Option.isSome_iff_exists.mp hsome
    refine ⟨C, hC, ?_⟩
    cases B with
    | node tb cb =>
      cases A with
      | node ta ca =>
        cases hwB with
        | node _ _ hB1 hB2 =>
          cases hA with
          | node _ _ hA1 hA2 =>
            rw [SampleTree.add_node, SampleTree.sub?_node,
              if_pos (by omega : tb ≤ ta + tb)] at hC
            by_cases h2 : ta + tb - tb = 0
            · rw [if_pos h2] at hC
              simp only [Option.some.injEq] at hC
              subst hC
              have hta : ta = 0 := by omega
              subst hta
              rw [SampleTree.prune_node, SampleTree.prune_node]
              have hzero : ∀ kv ∈ ca, kv.2.total = 0 := by
                intro kv hm
                have := (totalsDom_child 0 ca hD kv hm).2
                omega
              refine SampleTree.Equiv.node _ _ rfl ?_ ?_
              · intro k
                show (lookupChild (pruneChildren []) k).isSome =
                  (lookupChild (pruneChildren ca) k).isSome
                rw [pruneChildren_nil, pruneChildren_lookup ca hA1 k]
                cases hlc : lookupChild ca k with
                | none => rfl
                | some c =>
                  have hz : c.total = 0 := hzero (k, c) (lookupChild_mem ca k c hlc)
                  simp [hz, lookupChild]
              · intro k c d hc hd
                have hc' : lookupChild (pruneChildren []) k = some c := hc
                rw [pruneChildren_nil] at hc'
                simp [lookupChild] at hc' 
            · rw [if_neg h2] at hC
              cases hsc : subChildren (addChildren ca cb) cb with
              | none =>
                rw [hsc] at hC
                cases hC
              | some ca'' =>
                rw [hsc] at hC
                simp only [Option.some.injEq] at hC
                subst hC
                rw [show ta + tb - tb = ta from by omega]
                have hwadd : WfKeys (SampleTree.node (ta + tb) (addChildren ca cb)) := by
                  have := add_wfKeys_aux (sizeOf (SampleTree.node tb cb)) _ le_rfl
                    (SampleTree.node ta ca) (WfKeys.node _ _ hA1 hA2)
                    (WfKeys.node _ _ hB1 hB2)
                  rwa [SampleTree.add_node] at this
                cases hwadd with
                | node _ _ hX1 hX2 =>
                  have hwsub : WfKeys (SampleTree.node (ta + tb - tb) ca'') := by
                    apply sub?_wfKeys_aux (sizeOf (SampleTree.node tb cb)) _ le_rfl
                      (SampleTree.node (ta + tb) (addChildren ca cb)) _
                      (WfKeys.node _ _ hX1 hX2)
                    rw [SampleTree.sub?_node, if_pos (by omega), if_neg h2, hsc]
                  cases hwsub with
                  | node _ _ hY1 hY2 =>
                    rw [SampleTree.prune_node, SampleTree.prune_node]
                    have key : ∀ k,
                        (lookupChild (pruneChildren ca'') k = none ∧
                          lookupChild (pruneChildren ca) k = none) ∨
                        (∃ u v, lookupChild (pruneChildren ca'') k = some u ∧
                          lookupChild (pruneChildren ca) k = some v ∧
                          SampleTree.Equiv u v) := by
                      intro k
                      rw [pruneChildren_lookup ca'' hY1 k,
                        pruneChildren_lookup ca hA1 k]
                      have hlc := subChildren_some_lookup cb hB1
                        (addChildren ca cb) ca'' hsc k
                      rw [addChildren_lookup cb hB1 ca k] at hlc
                      cases hcb : lookupChild cb k with
                      | none =>
                        simp only [hcb] at hlc
                        rw [hlc]
                        cases hca : lookupChild ca k with
                        | none => left; exact ⟨rfl, rfl⟩
                        | some av =>
                          by_cases hz : av.total = 0
                          · left
                            simp [hz]
                          · right
                            exact ⟨av.prune, av.prune, by simp [hz], by simp [hz],
                              equiv_refl_aux (sizeOf av.prune) _ le_rfl⟩
                      | some bv =>
                        simp only [hcb] at hlc
                        have hszbv : sizeOf bv ≤ m := by
                          have h1 := sizeOf_lookupChild_lt tb cb k bv hcb
                          omega
                        have hwbv : WfKeys bv :=
                          hB2 (k, bv) (lookupChild_mem cb k bv hcb)
                        cases hca : lookupChild ca k with
                        | none =>
                          obtain ⟨m', hm'1, hm'2⟩ := ih bv hszbv SampleTree.new
                            (WfKeys.node 0 [] List.nodup_nil (by simp)) hwbv
                            (TotalsDom.node 0 [] (by simp) (by simp))
                          rw [hca] at hlc
                          simp only [Option.getD_none] at hlc
                          have hm't : m'.total = 0 := by
                            cases hm'2 with
                            | node _ _ het _ _ =>
                              rw [prune_total, prune_total] at het
                              exact het
                          left
                          constructor
                          · rw [hlc, hm'1]
                            simp [hm't]
                          · rfl
                        | some av =>
                          have hmav := lookupChild_mem ca k av hca
                          obtain ⟨hDav, _⟩ := totalsDom_child ta ca hD (k, av) hmav
                          obtain ⟨m', hm'1, hm'2⟩ := ih bv hszbv av
                            (hA2 (k, av) hmav) hwbv hDav
                          rw [hca] at hlc
                          simp only [Option.getD_some] at hlc
                          have hm't : m'.total = av.total := by
                            cases hm'2 with
                            | node _ _ het _ _ =>
                              rw [prune_total, prune_total] at het
                              exact het
                          by_cases hz : av.total = 0
                          · left
                            constructor
                            · rw [hlc, hm'1]
                              simp [hm't, hz]
                            · simp [hz]
                          · right
                            refine ⟨m'.prune, av.prune, ?_, ?_, hm'2⟩
                            · rw [hlc, hm'1]
                              simp [hm't, hz]
                            · simp [hz]
                    refine SampleTree.Equiv.node _ _ rfl ?_ ?_
                    · intro k
                      show (lookupChild (pruneChildren ca'') k).isSome =
                        (lookupChild (pruneChildren ca) k).isSome
                      rcases key k with ⟨h1', h2'⟩ | ⟨u, v, h1', h2', _⟩ <;>
                        rw [h1', h2'] <;> rfl
                    · intro k c d hc hd
                      have hc' : lookupChild (pruneChildren ca'') k = some c := hc
                      have hd' : lookupChild (pruneChildren ca) k = some d := hd
                      rcases key k with ⟨h1', h2'⟩ | ⟨u, v, h1', h2', huv⟩
                      · rw [h1'] at hc'
                        cases hc'
                      · rw [h1'] at hc'
                        rw [h2'] at hd'
                        cases hc'
                        cases hd'
                        exact huv

/-- C10: SampleTree::sub subtracts unchecked u64 totals at every node it
visits; it is free of underflow (the Option model returns some) exactly
when at every visited node the total of other fits below the total of
self, and that precondition always holds when other was previously added
into self, the window-eviction use. -/
theorem claim_C10_sub_underflow (A B : SampleTree) (hB : WfKeys B) :
    ((A.sub? B).isSome ↔ SubLe A B) ∧ ((A.add B).sub? B).isSome :=
  ⟨sub?_isSome_iff_aux (sizeOf B) B le_rfl A hB,
    (sub?_isSome_iff_aux (sizeOf B) B le_rfl (A.add B) hB).mpr
      (add_subLe_aux (sizeOf B) B le_rfl A hB)⟩

/-- Witness for C10 at the violating pair (total 0 minus total 1), where
sub? indeed underflows, and its add round trip, which does not. -/
theorem claim_C10_witness :
    (((SampleTree.node 0 []).sub? (SampleTree.node 1 [])).isSome ↔
      SubLe (SampleTree.node 0 []) (SampleTree.node 1 [])) ∧
    (((SampleTree.node 0 []).add (SampleTree.node 1 [])).sub?
      (SampleTree.node 1 [])).isSome :=
  claim_C10_sub_underflow (SampleTree.node 0 []) (SampleTree.node 1 [])
    (WfKeys.node 1 [] List.nodup_nil (by simp))

/-- Counterexample to C8 as stated: with A mapping key a to one sample and
B mapping key b to one sample, A.add(B).sub(B) keeps a zero-total child at
key b that A never had, so the round trip is not equal (as HashMap
equality) to A. -/
theorem claim_C8_counterexample :
    ((SampleTree.node 1 [(r"a", SampleTree.node 1 [])]).add
        (SampleTree.node 1 [(r"b", SampleTree.node 1 [])])).sub?
        (SampleTree.node 1 [(r"b", SampleTree.node 1 [])]) =
      some (SampleTree.node 1
        [(r"a", SampleTree.node 1 []), (r"b", SampleTree.node 0 [])]) ∧
    ¬ SampleTree.Equiv
        (SampleTree.node 1 [(r"a", SampleTree.node 1 []), (r"b", SampleTree.node 0 [])])
        (SampleTree.node 1 [(r"a", SampleTree.node 1 [])]) := by
  have hab : ¬((r"a" : String) = r"b") := by decide
  constructor
  · simp [SampleTree.add_node, addChildren_cons, addChildren_nil,
      getOrCreateUpdate, SampleTree.sub?_node, subChildren_cons, subChildren_nil,
      subOneChild_cons, subOneChild_nil, SampleTree.new, hab]
  · intro h
    cases h with
    | node _ _ _ hsome _ =>
      have hb := hsome r"b"
      simp [SampleTree.children, lookupChild, hab] at hb

/-- C8 amended: for trees with duplicate-free child keys whose left
operand satisfies the children-totals invariant, A.add(B).sub(B) succeeds
and equals A up to dropping zero-total subtrees on both sides: sub leaves
zero-total children in place where B had nodes absent from A, and
eviction drops the (necessarily all-zero) subtrees below any node whose
total reaches zero. -/
theorem claim_C8_roundtrip_amended (A B : SampleTree) (hA : WfKeys A)
    (hB : WfKeys B) (hD : TotalsDom A) :
    ∃ C, (A.add B).sub? B = some C ∧ SampleTree.Equiv C.prune A.prune :=
  addSub_prune_aux (sizeOf B) B le_rfl A hA hB hD

/-- Witness for the amended C8 at concrete trees. -/
theorem claim_C8_witness :
    ∃ C, ((SampleTree.node 1 []).add
        (SampleTree.node 1 [(r"b", SampleTree.node 1 [])])).sub?
        (SampleTree.node 1 [(r"b", SampleTree.node 1 [])]) = some C ∧
      SampleTree.Equiv C.prune (SampleTree.node 1 []).prune :=
  claim_C8_roundtrip_amended (SampleTree.node 1 [])
    (SampleTree.node 1 [(r"b", SampleTree.node 1 [])])
    (WfKeys.node 1 [] List.nodup_nil (by simp))
    (WfKeys.node 1 [(r"b", SampleTree.node 1 [])] (by simp [keysOf])
      (by
        intro kv hm
        simp at hm
        rw [hm]
        exact WfKeys.node 1 [] List.nodup_nil (by simp)))
    (TotalsDom.node 1 [] (by simp) (by simp))

/-- A DATA-sample inode fold where every ino_lookup fails records
nothing. -/
theorem foldl_inoLookup_err (il : Nat → Nat → Except Unit String)
    (roots : Nat → List String) (items : List LogicalInoItem)
    (hall : ∀ item ∈ items, il item.root item.inum = Except.error ()) :
    ∀ t0 : SampleTree, items.foldl (fun acc inode =>
      match il inode.root inode.inum with
      | .ok path => SampleTree.add_sample (roots inode.root ++ splitNonEmpty path) acc
      | .error _ => acc) t0 = t0 := by
  induction items with
  | nil => intro t0; rfl
  | cons item rest ih =>
    intro t0
    have h1 := hall item (List.mem_cons_self _ _)
    simp only [List.foldl, h1]
    exact ih (fun it hm => hall it (List.mem_cons_of_mem _ hm)) t0

/-- C1 amended: one sampling-loop classification step.  A DATA sample
that resolves to an inode with path s is recorded under
root_components(root) ++ the non-empty components of s (no DATA prefix:
that recording is commented out in the source); METADATA, SYSTEM and
other chunk types record nothing. -/
theorem claim_C1_amended (li : Nat → Except Unit (List LogicalInoItem))
    (il : Nat → Nat → Except Unit String) (roots : Nat → List String)
    (c : ChunkInfo) (p : Nat) (t : SampleTree) :
    (((c.chunk_type % 2 ^ 32) &&& BTRFS_BLOCK_GROUP_TYPE_MASK
        = BTRFS_BLOCK_GROUP_DATA) →
      ∀ item s, li (c.chunk_offset + (p - c.pos)) = .ok [item] →
        il item.root item.inum = .ok s →
        sampleStep li il roots c p t =
          SampleTree.add_sample (roots item.root ++ splitNonEmpty s) t) ∧
    (((c.chunk_type % 2 ^ 32) &&& BTRFS_BLOCK_GROUP_TYPE_MASK
        = BTRFS_BLOCK_GROUP_METADATA) →
      sampleStep li il roots c p t = t) ∧
    (((c.chunk_type % 2 ^ 32) &&& BTRFS_BLOCK_GROUP_TYPE_MASK
        = BTRFS_BLOCK_GROUP_SYSTEM) →
      sampleStep li il roots c p t = t) ∧
    (((c.chunk_type % 2 ^ 32) &&& BTRFS_BLOCK_GROUP_TYPE_MASK
        ≠ BTRFS_BLOCK_GROUP_DATA) →
      ((c.chunk_type % 2 ^ 32) &&& BTRFS_BLOCK_GROUP_TYPE_MASK
        ≠ BTRFS_BLOCK_GROUP_METADATA) →
      ((c.chunk_type % 2 ^ 32) &&& BTRFS_BLOCK_GROUP_TYPE_MASK
        ≠ BTRFS_BLOCK_GROUP_SYSTEM) →
      sampleStep li il roots c p t = t) := by
  refine ⟨?_, ?_, ?_, ?_⟩
  · intro hdata item s hli hil
    simp only [sampleStep]
    rw [if_pos hdata, hli]
    simp [hil]
  · intro hmd
    have hne : ¬ ((c.chunk_type % 2 ^ 32) &&& BTRFS_BLOCK_GROUP_TYPE_MASK
        = BTRFS_BLOCK_GROUP_DATA) := by
      rw [hmd]
      decide
    simp only [sampleStep]
    rw [if_neg hne, if_pos hmd]
  · intro hsys
    have hne : ¬ ((c.chunk_type % 2 ^ 32) &&& BTRFS_BLOCK_GROUP_TYPE_MASK
        = BTRFS_BLOCK_GROUP_DATA) := by
      rw [hsys]
      decide
    have hne2 : ¬ ((c.chunk_type % 2 ^ 32) &&& BTRFS_BLOCK_GROUP_TYPE_MASK
        = BTRFS_BLOCK_GROUP_METADATA) := by
      rw [hsys]
      decide
    simp only [sampleStep]
    rw [if_neg hne, if_neg hne2, if_pos hsys]
  · intro h1 h2 h3
    simp only [sampleStep]
    rw [if_neg h1, if_neg h2, if_neg h3]

/-- Counterexample to C1 as stated: a METADATA sample records nothing at
all (the tree is unchanged, so nothing is under the METADATA path), and a
DATA sample is recorded without the DATA prefix (the resulting tree holds
one sample and has no DATA child). -/
theorem claim_C1_counterexample :
    sampleStep (fun _ => Except.ok [⟨10, 0, 256⟩]) (fun _ _ => Except.ok (r"a/b"))
        (fun _ => [r"sub"]) ⟨0, 0, 100, 4⟩ 0 SampleTree.new = SampleTree.new ∧
    totalAt SampleTree.new [r"METADATA"] = 0 ∧
    (sampleStep (fun _ => Except.ok [⟨10, 0, 256⟩]) (fun _ _ => Except.ok (r"a/b"))
        (fun _ => [r"sub"]) ⟨0, 1000, 100, 1⟩ 0 SampleTree.new).total = 1 ∧
    subtreeAt (sampleStep (fun _ => Except.ok [⟨10, 0, 256⟩])
        (fun _ _ => Except.ok (r"a/b")) (fun _ => [r"sub"])
        ⟨0, 1000, 100, 1⟩ 0 SampleTree.new) [r"DATA"] = none :=
  ⟨rfl, rfl, rfl, rfl⟩

/-- Witness for C1 amended on a concrete DATA sample. -/
theorem claim_C1_witness :
    sampleStep (fun _ => Except.ok [⟨10, 0, 256⟩]) (fun _ _ => Except.ok (r"a/b"))
        (fun _ => [r"sub"]) ⟨0, 1000, 100, 1⟩ 0 SampleTree.new =
      SampleTree.add_sample ([r"sub"] ++ splitNonEmpty (r"a/b")) SampleTree.new :=
  (claim_C1_amended (fun _ => Except.ok [⟨10, 0, 256⟩])
      (fun _ _ => Except.ok (r"a/b")) (fun _ => [r"sub"])
      ⟨0, 1000, 100, 1⟩ 0 SampleTree.new).1 rfl ⟨10, 0, 256⟩ (r"a/b") rfl rfl

/-- C2 amended: per-sample failure handling in the sampling loop.  A
failing LogicalIno, or an inode whose InoLookup fails, records nothing in
the tree (the ERROR-bucket recordings are commented out in the source);
the iteration still completes (the pass continues) and the sample is
counted toward total_samples. -/
theorem claim_C2_amended (li : Nat → Except Unit (List LogicalInoItem))
    (il : Nat → Nat → Except Unit String) (roots : Nat → List String)
    (chunks : List ChunkInfo) (p : Nat) (st : SampleTree × Nat) (c : ChunkInfo)
    (hfind : chunks.find?
      (fun c => decide (c.pos ≤ p) && decide (p < c.pos + c.chunk_length)) = some c)
    (hdata : (c.chunk_type % 2 ^ 32) &&& BTRFS_BLOCK_GROUP_TYPE_MASK
      = BTRFS_BLOCK_GROUP_DATA) :
    (li (c.chunk_offset + (p - c.pos)) = .error () →
      sampleLoopBody li il roots chunks p st = some (st.1, st.2 + 1)) ∧
    (∀ items, li (c.chunk_offset + (p - c.pos)) = .ok items →
      (∀ item ∈ items, il item.root item.inum = .error ()) →
      sampleLoopBody li il roots chunks p st = some (st.1, st.2 + 1)) := by
  constructor
  · intro hli
    simp only [sampleLoopBody, hfind]
    have hstep : sampleStep li il roots c p st.1 = st.1 := by
      simp only [sampleStep]
      rw [if_pos hdata, hli]
    rw [hstep]
  · intro items hli hall
    simp only [sampleLoopBody, hfind]
    have hstep : sampleStep li il roots c p st.1 = st.1 := by
      simp only [sampleStep]
      rw [if_pos hdata, hli]
      exact foldl_inoLookup_err il roots items hall st.1
    rw [hstep]

/-- Counterexample to C2 as stated: with LogicalIno always failing, the
sample is counted but the tree is left empty; in particular nothing is
recorded under DATA/ERROR/LOGICAL_TO_INO. -/
theorem claim_C2_counterexample :
    sampleLoopBody (fun _ => Except.error ()) (fun _ _ => Except.ok (r"a"))
        (fun _ => []) [⟨0, 1000, 100, 1⟩] 0 (SampleTree.new, 0) =
      some (SampleTree.new, 1) ∧
    totalAt SampleTree.new [r"DATA", r"ERROR", r"LOGICAL_TO_INO"] = 0 :=
  ⟨rfl, rfl⟩

/-- Witness for C2 amended on a concrete failing LogicalIno sample. -/
theorem claim_C2_witness :
    sampleLoopBody (fun _ => Except.error ()) (fun _ _ => Except.ok (r"a"))
        (fun _ => []) [⟨0, 1000, 100, 1⟩] 0 (SampleTree.new, 0) =
      some (SampleTree.new, 1) :=
  (claim_C2_amended (fun _ => Except.error ()) (fun _ _ => Except.ok (r"a"))
      (fun _ => []) [⟨0, 1000, 100, 1⟩] 0 (SampleTree.new, 0)
      ⟨0, 1000, 100, 1⟩ rfl rfl).1 rfl

/-- C9 amended: an inline ref whose type tag is neither
EXTENT_DATA_REF_KEY nor SHARED_DATA_REF_KEY hits the todo! panic, so the
record walk aborts (none), and a panic in any record aborts the whole
extent-tree scan: subsequent records are not processed. -/
theorem claim_C9_amended (u : Usage) (len tag : Nat) (tl : List Nat)
    (h1 : tag % 2 ^ 8 ≠ BTRFS_EXTENT_DATA_REF_KEY)
    (h2 : tag % 2 ^ 8 ≠ BTRFS_SHARED_DATA_REF_KEY) :
    walkInlineRefs len u (tag :: tl) = none ∧
    (∀ (r : SearchRecord) (recs : List SearchRecord) (u' : Usage),
      processRecord u' r.header r.data = none →
      scanRecords u' (r :: recs) = none) := by
  constructor
  · rw [walkInlineRefs]
    rw [if_neg h1, if_neg h2]
  · intro r recs u' hp
    simp [scanRecords, hp]

/-- Counterexample to C9 as stated: a DATA extent record with an unknown
inline ref tag (99) panics, and the scan of the record list consisting of
that record followed by a well-formed record aborts (none) instead of
continuing; the well-formed record alone would have been attributed. -/
theorem claim_C9_counterexample :
    scanRecords []
      [⟨⟨0, 123, 100, 168, 0⟩,
        List.replicate 16 0 ++ (1 :: List.replicate 7 0) ++ [99]⟩,
       ⟨⟨0, 124, 100, 168, 0⟩,
        List.replicate 16 0 ++ (1 :: List.replicate 7 0) ++
          (178 :: (7 :: List.replicate 7 0) ++ (9 :: List.replicate 7 0) ++
            List.replicate 12 0)⟩] = none ∧
    scanRecords []
      [⟨⟨0, 124, 100, 168, 0⟩,
        List.replicate 16 0 ++ (1 :: List.replicate 7 0) ++
          (178 :: (7 :: List.replicate 7 0) ++ (9 :: List.replicate 7 0) ++
            List.replicate 12 0)⟩] = some [((7, 9), 100)] := by
  constructor
  · simp [scanRecords, processRecord, BTRFS_EXTENT_ITEM_KEY, readBytes, leU64,
      walkInlineRefs, BTRFS_EXTENT_FLAG_TREE_BLOCK, BTRFS_EXTENT_FLAG_DATA,
      BTRFS_EXTENT_DATA_REF_KEY, BTRFS_SHARED_DATA_REF_KEY, List.replicate]
  · simp [scanRecords, processRecord, BTRFS_EXTENT_ITEM_KEY, readBytes, leU64,
      walkInlineRefs, BTRFS_EXTENT_FLAG_TREE_BLOCK, BTRFS_EXTENT_FLAG_DATA,
      BTRFS_EXTENT_DATA_REF_KEY, BTRFS_SHARED_DATA_REF_KEY, addUsage,
      List.replicate]

/-- Witness for C9 amended at tag 99. -/
theorem claim_C9_witness : walkInlineRefs 100 [] [99] = none :=
  (claim_C9_amended [] 100 99 [] (by decide) (by decide)).1
